import Mathlib

/-!
# Port 0x04 message encoder (catena-message-port4-test.cpp)

A shallow embedding of the fixed-point codec (`encode16s`, `encode16u`, `encodeV`,
`encodeT`, `encodeRH`, `encodeRegister`), of the byte buffer (`Buffer`), of the message
encoder (`encodeMeasurement`) and of the sign/magnitude float encoder (`LMIC_f2sflt16`),
followed by the properties proved about them.

Conventions.
* `float` is IEEE-754 binary32 with round-to-nearest, ties-to-even, and every float
  operation is rounded to binary32 (`v + 0.5f`, `v * 4096.0f`, ... have type `float`).
  A value of type `F32` is a finite rational or an infinity.  The results of arithmetic
  are rounded by `round32`; `F32.isFloat` says that a value is exactly representable in
  binary32.  `double` is binary64, modelled the same way (`F64`, `round64`).
  NaN is not a value of the model: no operation of the encoders produces a NaN from
  arguments that are not NaN, and converting a NaN to an integer type is undefined in C++.
  The two zeros of binary32 are identified (nothing computed here depends on the sign of
  a zero).
* `uint8_t`, `uint16_t`, `unsigned` are natural numbers; conversions to a narrower type
  reduce modulo `2 ^ w` explicitly.
* A read of `Register[i]` with `i` outside the array makes the encoder return `none`.
-/

/-! ## binary32 arithmetic -/

/-- A binary32 value other than NaN: a finite number or an infinity. -/
inductive F32 where
  | fin (q : ℚ)
  | pinf
  | ninf
  deriving DecidableEq

/-- Round a rational to the nearest integer, ties to the even one. -/
def roundNE (r : ℚ) : ℤ :=
  if r - ⌊r⌋ < 1 / 2 then ⌊r⌋
  else if 1 / 2 < r - ⌊r⌋ then ⌊r⌋ + 1
  else if ⌊r⌋ % 2 = 0 then ⌊r⌋ else ⌊r⌋ + 1

/-- Exponent of the unit in the last place of binary32 at magnitude `|q|`: the least
`e ≥ -149` with `|q| < 2 ^ (e + 24)` (24 significand bits, least exponent -149). -/
def ulpExp (q : ℚ) : ℤ :=
  if q = 0 then -149 else max (-149) (Int.log 2 |q| - 23)

/-- Round to 24 significand bits with least exponent -149 and no upper bound on the
exponent. -/
def roundFin (q : ℚ) : ℚ :=
  (roundNE (q / 2 ^ ulpExp q) : ℚ) * 2 ^ ulpExp q

/-- Rounding of an exact result to binary32 (round to nearest, ties to even); a result
of magnitude `2 ^ 128` or more after rounding overflows to an infinity. -/
def round32 (q : ℚ) : F32 :=
  if 2 ^ 128 ≤ roundFin q then F32.pinf
  else if roundFin q ≤ -(2 ^ 128) then F32.ninf
  else F32.fin (roundFin q)

namespace F32

/-- The value is exactly representable in binary32. -/
def isFloat : F32 → Prop
  | fin q => round32 q = fin q
  | _ => True

instance (x : F32) : Decidable x.isFloat := by
  cases x <;> unfold isFloat <;> infer_instance

/-- The order of binary32 values. -/
def le : F32 → F32 → Prop
  | ninf, _ => True
  | _, pinf => True
  | fin a, fin b => a ≤ b
  | _, _ => False

/-- Float addition `x + c` of a finite constant `c`. -/
def add (x : F32) (c : ℚ) : F32 :=
  match x with
  | fin q => round32 (q + c)
  | pinf => pinf
  | ninf => ninf

/-- Float multiplication `x * c` by a finite constant `c ≠ 0` (every constant factor in
the program is positive; an infinity times zero would be a NaN). -/
def mul (x : F32) (c : ℚ) : F32 :=
  match x with
  | fin q => round32 (q * c)
  | pinf => if 0 < c then pinf else ninf
  | ninf => if 0 < c then ninf else pinf

/-- Float division `x / c` by a finite constant `c ≠ 0`. -/
def div (x : F32) (c : ℚ) : F32 :=
  match x with
  | fin q => round32 (q / c)
  | pinf => if 0 < c then pinf else ninf
  | ninf => if 0 < c then ninf else pinf

/-- The function `std::floor`. -/
def floor : F32 → F32
  | fin q => fin ⌊q⌋
  | pinf => pinf
  | ninf => ninf

/-- The comparison `x > c` with a finite constant. -/
def gt (x : F32) (c : ℚ) : Bool :=
  match x with
  | fin q => decide (c < q)
  | pinf => true
  | ninf => false

/-- The comparison `x < c` with a finite constant. -/
def lt (x : F32) (c : ℚ) : Bool :=
  match x with
  | fin q => decide (q < c)
  | pinf => false
  | ninf => true

/-- Conversion of a float to an integer type wide enough to hold it: truncation toward
zero.  The encoders only convert finite values that passed their range checks, so the
infinities are never converted. -/
def toInt : F32 → ℤ
  | fin q => if 0 ≤ q then ⌊q⌋ else ⌈q⌉
  | _ => 0

end F32

/-! ## Machine integers -/

/-- Conversion to `uint8_t`. -/
def u8 (n : Nat) : Nat := n % 2 ^ 8

/-- Conversion of a signed integer to `uint16_t`: reduction modulo `2 ^ 16`. -/
def u16 (n : ℤ) : Nat := (n % 2 ^ 16).toNat

/-- The value of a 16-bit word read as a two's-complement integer. -/
def s16 (w : Nat) : ℤ := if w < 2 ^ 15 then (w : ℤ) else (w : ℤ) - 2 ^ 16

/-! ## The measurement record -/

/-- The template `val<T>`: a validity flag and a value. -/
structure val (T : Type) where
  fValid : Bool
  v : T

/-- The struct `env`. -/
structure env where
  t : F32
  rh : F32

/-- The constant `modbus::knReg`, with the integer division of C++. -/
def knReg : Nat := (240 - 13) / 2

/-- The struct `modbus`: the register count and the array `Register[knReg]`. -/
structure modbus where
  nReg : Nat
  Register : Fin knReg → F32

/-- The struct `Measurements`. -/
structure Measurements where
  Vbat : val F32
  Vsys : val F32
  Boot : val (Fin 256)
  Env : val env
  Modbus : val modbus

/-! ## Fixed-point codec -/

/-- The function `encode16s`.  In the last branch `nv` is an integer within the range of
`int16_t`, so the conversion to `int16_t` is exact; the conversion to `uint16_t` reduces
modulo `2 ^ 16`. -/
def encode16s (v : F32) : Nat :=
  let nv := (v.add (1 / 2)).floor
  if nv.gt 32767 then 0x7FFF
  else if nv.lt (-32768) then 0x8000
  else u16 nv.toInt

/-- The function `encode16u`. -/
def encode16u (v : F32) : Nat :=
  let nv := (v.add (1 / 2)).floor
  if nv.gt 65535 then 0xFFFF
  else if nv.lt 0 then 0
  else u16 nv.toInt

/-- The function `encodeV`. -/
def encodeV (v : F32) : Nat := encode16s (v.mul 4096)

/-- The function `encodeT`. -/
def encodeT (v : F32) : Nat := encode16s (v.mul 256)

/-- The function `encodeRH`. -/
def encodeRH (v : F32) : Nat := encode16u ((v.mul 65535).div 100)

/-- The function `encodeRegister`. -/
def encodeRegister (v : F32) : Nat := encode16u v

/-! ## Byte buffer -/

/-- The class `Buffer`: a vector of bytes. -/
abbrev Buffer := List Nat

namespace Buffer

/-- The method `clear` of `std::vector<std::uint8_t>`. -/
def clear (_ : Buffer) : Buffer := []

/-- The method `push_back` of `std::vector<std::uint8_t>`. -/
def push_back (buf : Buffer) (b : Nat) : Buffer := buf ++ [b]

/-- The method `push_back_be`. -/
def push_back_be (buf : Buffer) (v : Nat) : Buffer :=
  (buf.push_back (u8 (v >>> 8))).push_back (u8 (v &&& 0xFF))

/-- The method `push_back_be4`. -/
def push_back_be4 (buf : Buffer) (v : Nat) : Buffer :=
  (((buf.push_back (u8 (v >>> 24))).push_back (u8 (v >>> 16))).push_back
    (u8 (v >>> 8))).push_back (u8 (v &&& 0xFF))

end Buffer

/-! ## Message encoder -/

/-- The loop `for (i = 0; i < nReg; ++i) buf.push_back_be(encodeRegister(Register[i]))`
with `n` iterations left and loop counter `i`; `none` when `Register[i]` is read outside
the array. -/
def encodeRegisters (mb : modbus) : Nat → Nat → Buffer → Option Buffer
  | 0, _, buf => some buf
  | n + 1, i, buf =>
    if h : i < knReg then
      encodeRegisters mb n (i + 1) (buf.push_back_be (encodeRegister (mb.Register ⟨i, h⟩)))
    else none

/-- The function `encodeMeasurement`; the result is the content of `buf` on return. -/
def encodeMeasurement (buf : Buffer) (m : Measurements) : Option Buffer :=
  let flags : Nat := 0
  let buf := buf.clear
  -- send the flag byte
  let buf := buf.push_back 0
  let iFlags := buf.length - 1
  -- put the fields
  let (flags, buf) :=
    if m.Vbat.fValid then (u8 (flags ||| 1 <<< 0), buf.push_back_be (encodeV m.Vbat.v))
    else (flags, buf)
  let (flags, buf) :=
    if m.Vsys.fValid then (u8 (flags ||| 1 <<< 1), buf.push_back_be (encodeV m.Vsys.v))
    else (flags, buf)
  let (flags, buf) :=
    if m.Boot.fValid then (u8 (flags ||| 1 <<< 2), buf.push_back m.Boot.v.val)
    else (flags, buf)
  let (flags, buf) :=
    if m.Env.fValid then
      (u8 (flags ||| 1 <<< 3),
        (buf.push_back_be (encodeT m.Env.v.t)).push_back_be (encodeRH m.Env.v.rh))
    else (flags, buf)
  let obuf :=
    if m.Modbus.fValid then encodeRegisters m.Modbus.v m.Modbus.v.nReg 0 buf
    else some buf
  -- update the flags
  obuf.map (fun buf => buf.set iFlags flags)

/-! ## The wire format as the specification words it -/

/-- The two bytes of a 16-bit word, most significant first. -/
def be16 (w : Nat) : List Nat := [w / 256, w % 256]

/-- The flag byte the specification describes: bit 0 for the battery voltage, bit 1 for
the system voltage, bit 2 for the boot count, bit 3 for the environment. -/
def specFlags (m : Measurements) : Nat :=
  (if m.Vbat.fValid then 1 else 0) + (if m.Vsys.fValid then 2 else 0)
    + (if m.Boot.fValid then 4 else 0) + (if m.Env.fValid then 8 else 0)

/-- The register values that are sent: the first `nReg` elements of `Register`. -/
def sentRegisters (mb : modbus) : List F32 := (List.ofFn mb.Register).take mb.nReg

/-- The message the specification describes: the flag byte, then the fields that are
present, in declaration order. -/
def specMessage (m : Measurements) : List Nat :=
  [specFlags m]
    ++ (if m.Vbat.fValid then be16 (encodeV m.Vbat.v) else [])
    ++ (if m.Vsys.fValid then be16 (encodeV m.Vsys.v) else [])
    ++ (if m.Boot.fValid then [m.Boot.v.val] else [])
    ++ (if m.Env.fValid then be16 (encodeT m.Env.v.t) ++ be16 (encodeRH m.Env.v.rh) else [])
    ++ (if m.Modbus.fValid then
          (sentRegisters m.Modbus.v).flatMap (fun r => be16 (encodeRegister r))
        else [])

/-- The record is within the contract of the encoder: a valid register bank holds at
most `knReg` registers. -/
def Measurements.inContract (m : Measurements) : Prop :=
  m.Modbus.fValid = true → m.Modbus.v.nReg ≤ knReg

instance (m : Measurements) : Decidable m.inContract := by
  unfold Measurements.inContract; infer_instance

/-- The quantisation the specification describes for `encode16s`: `floor(x + 0.5)` over
the reals, saturated to the signed 16-bit range, as a 16-bit word. -/
def specRound16s : F32 → Nat
  | F32.fin q =>
    if 32767 < ⌊q + 1 / 2⌋ then 0x7FFF
    else if ⌊q + 1 / 2⌋ < -32768 then 0x8000
    else u16 ⌊q + 1 / 2⌋
  | F32.pinf => 0x7FFF
  | F32.ninf => 0x8000

/-- The quantisation the specification describes for `encode16u`: `floor(x + 0.5)` over
the reals, clamped to `[0, 65535]`. -/
def specRound16u : F32 → Nat
  | F32.fin q =>
    if 65535 < ⌊q + 1 / 2⌋ then 0xFFFF
    else if ⌊q + 1 / 2⌋ < 0 then 0
    else (⌊q + 1 / 2⌋).toNat
  | F32.pinf => 0xFFFF
  | F32.ninf => 0

/-! ## Sample records -/

/-- A register array holding `a`, `b` in its first two elements and zeros elsewhere. -/
def twoRegisters (a b : F32) : Fin knReg → F32 :=
  fun i => if i.val = 0 then a else if i.val = 1 then b else F32.fin 0

/-- The record with no field present. -/
def exEmpty : Measurements :=
  { Vbat := ⟨false, F32.fin 0⟩, Vsys := ⟨false, F32.fin 0⟩, Boot := ⟨false, 0⟩,
    Env := ⟨false, ⟨F32.fin 0, F32.fin 0⟩⟩,
    Modbus := ⟨false, ⟨0, fun _ => F32.fin 0⟩⟩ }

/-- The record with `Boot = 7` and `Env = (22.5, 45.0)` present. -/
def exBootEnv : Measurements :=
  { exEmpty with Boot := ⟨true, 7⟩, Env := ⟨true, ⟨F32.fin (45 / 2), F32.fin 45⟩⟩ }

/-- The record with only `Vbat` present, holding the binary32 value nearest to 3.3. -/
def exVbat : Measurements :=
  { exEmpty with Vbat := ⟨true, F32.fin (13841203 / 4194304)⟩ }

/-- The record with only the registers `[100.0, 200.0]` present. -/
def exRegisters : Measurements :=
  { exEmpty with Modbus := ⟨true, ⟨2, twoRegisters (F32.fin 100) (F32.fin 200)⟩⟩ }

/-- The record with all five fields present and `knReg` registers. -/
def exFull : Measurements :=
  { Vbat := ⟨true, F32.fin 0⟩, Vsys := ⟨true, F32.fin 0⟩, Boot := ⟨true, 0⟩,
    Env := ⟨true, ⟨F32.fin 0, F32.fin 0⟩⟩,
    Modbus := ⟨true, ⟨knReg, fun _ => F32.fin 0⟩⟩ }

/-- The record `exEmpty` with a valid register bank of no registers. -/
def exNoRegisters : Measurements :=
  { exEmpty with Modbus := ⟨true, ⟨0, fun _ => F32.fin 0⟩⟩ }

/-- The record `exRegisters` with other values in the absent fields and in the register
slots from index 2 on. -/
def exRegistersOther : Measurements :=
  { Vbat := ⟨false, F32.fin 1⟩, Vsys := ⟨false, F32.fin 2⟩, Boot := ⟨false, 3⟩,
    Env := ⟨false, ⟨F32.fin 4, F32.fin 5⟩⟩,
    Modbus := ⟨true, ⟨2, fun i =>
      if i.val = 0 then F32.fin 100 else if i.val = 1 then F32.fin 200 else F32.fin 999⟩⟩ }

/-! ## binary64 arithmetic -/

/-- A binary64 value other than NaN: a finite number or an infinity. -/
inductive F64 where
  | fin (q : ℚ)
  | pinf
  | ninf
  deriving DecidableEq

/-- Exponent of the unit in the last place of binary64 at magnitude `|q|`: the least
`e ≥ -1074` with `|q| < 2 ^ (e + 53)` (53 significand bits, least exponent -1074). -/
def ulpExp64 (q : ℚ) : ℤ :=
  if q = 0 then -1074 else max (-1074) (Int.log 2 |q| - 52)

/-- Round to 53 significand bits with least exponent -1074 and no upper bound on the
exponent. -/
def roundFin64 (q : ℚ) : ℚ :=
  (roundNE (q / 2 ^ ulpExp64 q) : ℚ) * 2 ^ ulpExp64 q

/-- Rounding of an exact result to binary64 (round to nearest, ties to even); a result
of magnitude `2 ^ 1024` or more after rounding overflows to an infinity. -/
def round64 (q : ℚ) : F64 :=
  if 2 ^ 1024 ≤ roundFin64 q then F64.pinf
  else if roundFin64 q ≤ -(2 ^ 1024) then F64.ninf
  else F64.fin (roundFin64 q)

/-- Conversion of a `float` to `double`, which is exact. -/
def F32.toDouble : F32 → F64
  | F32.fin q => F64.fin q
  | F32.pinf => F64.pinf
  | F32.ninf => F64.ninf

/-- Double addition `x + c` of a finite constant `c`. -/
def F64.add (x : F64) (c : ℚ) : F64 :=
  match x with
  | F64.fin q => round64 (q + c)
  | F64.pinf => F64.pinf
  | F64.ninf => F64.ninf

/-- Conversion of a double to an integer type wide enough to hold it: truncation toward
zero.  The encoder only converts finite values. -/
def F64.toInt : F64 → ℤ
  | F64.fin q => if 0 ≤ q then ⌊q⌋ else ⌈q⌉
  | _ => 0

/-! ## The LoRaWAN sign/magnitude float encoder -/

/-- The comparison `x <= c` with a finite constant. -/
def F32.leq (x : F32) (c : ℚ) : Bool :=
  match x with
  | F32.fin q => decide (q ≤ c)
  | F32.pinf => false
  | F32.ninf => true

/-- The comparison `x >= c` with a finite constant. -/
def F32.geq (x : F32) (c : ℚ) : Bool :=
  match x with
  | F32.fin q => decide (c ≤ q)
  | F32.pinf => true
  | F32.ninf => false

/-- The function `frexpf` on a finite value: the fraction, of magnitude in `[0.5, 1)`, and
the exponent, with `q = fraction * 2 ^ exponent`; zero gives `(0, 0)`.  The operation is
exact: the fraction of a binary32 value is a binary32 value. -/
def frexpf (q : ℚ) : ℚ × ℤ :=
  if q = 0 then (0, 0) else (q / 2 ^ (Int.log 2 |q| + 1), Int.log 2 |q| + 1)

/-- The function `ldexpf`: `x * 2 ^ n`, rounded to binary32. -/
def ldexpf (x : F32) (n : ℤ) : F32 :=
  match x with
  | F32.fin q => round32 (q * 2 ^ n)
  | F32.pinf => F32.pinf
  | F32.ninf => F32.ninf

/-- The second half of `LMIC_f2sflt16`, from `iExp += 15` on, with the sign bit `sign`
and the absolute value `normalValue` of the fraction.  The sum
`ldexpf(normalValue, 11) + 0.5` is a double sum, converted to `uint16_t`; `iExp` is not
negative when it is shifted. -/
def LMIC_f2sflt16_pack (sign : Nat) (normalValue : ℚ) (iExp : ℤ) : Nat :=
  let iExp := iExp + 15
  let iExp := if iExp < 0 then 0 else iExp
  -- we compute the fraction and then decide if we need to round.
  let outputFraction : Nat :=
    u16 (((ldexpf (F32.fin normalValue) 11).toDouble.add (1 / 2)).toInt)
  let (outputFraction, iExp) :=
    if outputFraction ≥ 1 <<< 11 then (1 <<< 10, iExp + 1) else (outputFraction, iExp)
  -- check for overflow and return max instead.
  if iExp > 15 then 0x7FFF ||| sign
  else (sign ||| (iExp.toNat <<< 11) ||| outputFraction) % 2 ^ 16

/-- The function `LMIC_f2sflt16`.  The infinities are caught by the two range checks, so
the last branch only sees finite values. -/
def LMIC_f2sflt16 (f : F32) : Nat :=
  if f.leq (-1) then 0xFFFF
  else if f.geq 1 then 0x7FFF
  else
    match f with
    | F32.fin q =>
      let (normalValue, iExp) := frexpf q
      let sign : Nat := 0
      let (sign, normalValue) :=
        if normalValue < 0 then (0x8000, -normalValue) else (sign, normalValue)
      LMIC_f2sflt16_pack sign normalValue iExp
    | _ => 0

/-- The exponent field of a sign/magnitude word: bits 14..11. -/
def sflt16Exp (w : Nat) : Nat := w / 2 ^ 11 % 2 ^ 4

/-- The mantissa field of a sign/magnitude word: bits 10..0. -/
def sflt16Mant (w : Nat) : Nat := w % 2 ^ 11

/-- The value a sign/magnitude word decodes to, `(-1) ^ s * (M / 2048) * 2 ^ (E - 15)`
with `s` bit 15, `E` the exponent field and `M` the mantissa field. -/
def sflt16Value (w : Nat) : ℚ :=
  (if w.testBit 15 then -1 else 1) * ((sflt16Mant w : ℚ) / 2048)
    * 2 ^ ((sflt16Exp w : ℤ) - 15)

/-! ## The codec with checked conversions -/

theorem u16_lt (n : ℤ) : u16 n < 2 ^ 16 := by
  unfold u16
  have h1 : 0 ≤ n % 2 ^ 16 := Int.emod_nonneg _ (by norm_num)
  have h2 : n % 2 ^ 16 < 2 ^ 16 := Int.emod_lt_of_pos _ (by norm_num)
  omega

theorem encode16s_lt (v : F32) : encode16s v < 2 ^ 16 := by
  unfold encode16s
  have := u16_lt ((v.add (1 / 2)).floor).toInt
  dsimp only
  split_ifs <;> omega

theorem encode16u_lt (v : F32) : encode16u v < 2 ^ 16 := by
  unfold encode16u
  have := u16_lt ((v.add (1 / 2)).floor).toInt
  dsimp only
  split_ifs <;> omega

theorem push_back_be_eq (buf : Buffer) (w : Nat) (hw : w < 2 ^ 16) :
    buf.push_back_be w = buf ++ be16 w := by
  unfold Buffer.push_back_be Buffer.push_back be16 u8
  have h1 : w >>> 8 = w / 256 := by rw [Nat.shiftRight_eq_div_pow]
  have h2 : w &&& 0xFF = w % 256 := Nat.and_pow_two_sub_one_eq_mod w 8
  rw [h1, h2]
  have h3 : w / 256 % 2 ^ 8 = w / 256 := by omega
  have h4 : w % 256 % 2 ^ 8 = w % 256 := by omega
  rw [h3, h4]
  simp

theorem encodeRegister_lt (v : F32) : encodeRegister v < 2 ^ 16 := encode16u_lt v

/-- The register loop appends the big-endian words of `n` registers from index `i` on. -/
theorem encodeRegisters_eq (mb : modbus) (n i : Nat) (buf : Buffer) (h : i + n ≤ knReg) :
    encodeRegisters mb n i buf
      = some (buf ++ (((List.ofFn mb.Register).drop i).take n).flatMap
          (fun r => be16 (encodeRegister r))) := by
  induction n generalizing i buf with
  | zero =>
    rw [encodeRegisters, List.take_zero, List.flatMap_nil, List.append_nil]
  | succ n ih =>
    have hi : i < knReg := by omega
    have hlen : i < (List.ofFn mb.Register).length := by rw [List.length_ofFn]; exact hi
    rw [encodeRegisters, dif_pos hi, ih (i + 1) _ (by omega),
      List.drop_eq_getElem_cons hlen, List.take_succ_cons, List.flatMap_cons,
      push_back_be_eq _ _ (encodeRegister_lt _), List.getElem_ofFn, List.append_assoc]

theorem push_back_be_encodeV (buf : Buffer) (v : F32) :
    buf.push_back_be (encodeV v) = buf ++ be16 (encodeV v) :=
  push_back_be_eq _ _ (encode16s_lt _)

theorem push_back_be_encodeT (buf : Buffer) (v : F32) :
    buf.push_back_be (encodeT v) = buf ++ be16 (encodeT v) :=
  push_back_be_eq _ _ (encode16s_lt _)

theorem push_back_be_encodeRH (buf : Buffer) (v : F32) :
    buf.push_back_be (encodeRH v) = buf ++ be16 (encodeRH v) :=
  push_back_be_eq _ _ (encode16u_lt _)

/-- The encoder produces the message the specification describes. -/
theorem encodeMeasurement_eq (b : Buffer) (m : Measurements) (h : m.inContract) :
    encodeMeasurement b m = some (specMessage m) := by
  obtain ⟨⟨fb, vb⟩, ⟨fs, vs⟩, ⟨fB, vB⟩, ⟨fE, vE⟩, ⟨fM, vM⟩⟩ := m
  have hreg : fM = true → encodeRegisters vM vM.nReg 0 =
      fun buf => some (buf ++ (sentRegisters vM).flatMap (fun r => be16 (encodeRegister r))) := by
    intro hM
    funext buf
    rw [encodeRegisters_eq vM vM.nReg 0 buf (by simpa using h hM)]
    rfl
  cases fM
  · cases fb <;> cases fs <;> cases fB <;> cases fE <;>
      simp [encodeMeasurement, specMessage, specFlags, push_back_be_encodeV,
        push_back_be_encodeT, push_back_be_encodeRH, Buffer.push_back, Buffer.clear, u8]
  · rw [encodeMeasurement, hreg rfl]
    cases fb <;> cases fs <;> cases fB <;> cases fE <;>
      simp [specMessage, specFlags, push_back_be_encodeV,
        push_back_be_encodeT, push_back_be_encodeRH, Buffer.push_back, Buffer.clear, u8]

/-! ## Auxiliary facts: rounding to binary32 -/

theorem roundNE_intCast (n : ℤ) : roundNE (n : ℚ) = n := by
  unfold roundNE
  simp

theorem roundNE_sub_le (r : ℚ) : (roundNE r : ℚ) - r ≤ 1 / 2 := by
  unfold roundNE
  have h1 := Int.floor_le r
  have h2 := Int.lt_floor_add_one r
  split_ifs with a b c
  · linarith
  · push_cast; linarith
  · linarith
  · push_cast; linarith

theorem sub_roundNE_le (r : ℚ) : r - (roundNE r : ℚ) ≤ 1 / 2 := by
  unfold roundNE
  have h1 := Int.floor_le r
  have h2 := Int.lt_floor_add_one r
  split_ifs with a b c
  · linarith
  · push_cast; linarith
  · linarith
  · push_cast; linarith

/-- Rounding to the nearest integer is monotone. -/
theorem roundNE_mono {r s : ℚ} (h : r ≤ s) : roundNE r ≤ roundNE s := by
  by_contra hc
  have hc1 : roundNE s + 1 ≤ roundNE r := by omega
  have hc2 : (roundNE s : ℚ) + 1 ≤ (roundNE r : ℚ) := by exact_mod_cast hc1
  have h1 := roundNE_sub_le r
  have h2 := sub_roundNE_le s
  have hrs : r = s := by linarith
  rw [hrs] at hc
  exact hc le_rfl

theorem two_zpow_pos (e : ℤ) : (0 : ℚ) < 2 ^ e := zpow_pos (by norm_num) e

theorem two_zpow_le {a b : ℤ} (h : a ≤ b) : (2 : ℚ) ^ a ≤ 2 ^ b :=
  zpow_le_zpow_right₀ (by norm_num) h

theorem two_zpow_lt {a b : ℤ} (h : a < b) : (2 : ℚ) ^ a < 2 ^ b :=
  zpow_lt_zpow_right₀ (by norm_num) h

theorem ulpExp_ge (q : ℚ) : -149 ≤ ulpExp q := by
  unfold ulpExp
  split_ifs
  · exact le_rfl
  · exact le_max_left _ _

theorem abs_lt_ulpExp (q : ℚ) : |q| < 2 ^ (ulpExp q + 24) := by
  unfold ulpExp
  split_ifs with h
  · rw [h, abs_zero]; exact two_zpow_pos _
  · have h1 : |q| < ((2 : ℕ) : ℚ) ^ (Int.log 2 |q| + 1) := Int.lt_zpow_succ_log_self (by norm_num) _
    have h2 : ((2 : ℕ) : ℚ) ^ (Int.log 2 |q| + 1) ≤ 2 ^ (max (-149) (Int.log 2 |q| - 23) + 24) := by
      push_cast
      apply two_zpow_le
      have := le_max_right (-149 : ℤ) (Int.log 2 |q| - 23)
      omega
    exact lt_of_lt_of_le h1 h2

theorem le_abs_of_ulpExp (q : ℚ) (h : -149 < ulpExp q) : 2 ^ (ulpExp q + 23) ≤ |q| := by
  unfold ulpExp at h ⊢
  split_ifs at h ⊢ with h0
  · omega
  · have hpos : 0 < |q| := abs_pos.mpr h0
    have h1 : ((2 : ℕ) : ℚ) ^ (Int.log 2 |q|) ≤ |q| := Int.zpow_log_le_self (by norm_num) hpos
    have h2 : max (-149) (Int.log 2 |q| - 23) = Int.log 2 |q| - 23 := by
      rcases max_choice (-149 : ℤ) (Int.log 2 |q| - 23) with hm | hm
      · rw [hm] at h; omega
      · exact hm
    rw [h2]
    have h3 : Int.log 2 |q| - 23 + 23 = Int.log 2 |q| := by ring
    rw [h3]
    exact_mod_cast h1

theorem ulpExp_le_of_abs_lt (q : ℚ) (e : ℤ) (he : -149 ≤ e) (h : |q| < 2 ^ (e + 24)) :
    ulpExp q ≤ e := by
  by_contra hc
  have hc1 : e + 1 ≤ ulpExp q := by omega
  have h1 := le_abs_of_ulpExp q (by omega)
  have h2 : (2 : ℚ) ^ (e + 24) ≤ 2 ^ (ulpExp q + 23) := two_zpow_le (by omega)
  linarith

theorem ulpExp_mono_abs {q r : ℚ} (h : |q| ≤ |r|) : ulpExp q ≤ ulpExp r :=
  ulpExp_le_of_abs_lt q _ (ulpExp_ge r) (lt_of_le_of_lt h (abs_lt_ulpExp r))

theorem ulpExp_eq (q : ℚ) (e : ℤ) (he : -149 ≤ e) (h1 : 2 ^ (e + 23) ≤ |q|)
    (h2 : |q| < 2 ^ (e + 24)) : ulpExp q = e := by
  apply le_antisymm (ulpExp_le_of_abs_lt q e he h2)
  by_contra hc
  have h3 := abs_lt_ulpExp q
  have h4 : (2 : ℚ) ^ (ulpExp q + 24) ≤ 2 ^ (e + 23) := two_zpow_le (by omega)
  linarith

theorem ulpExp_eq_min (q : ℚ) (h : |q| < 2 ^ (-125 : ℤ)) : ulpExp q = -149 :=
  le_antisymm (ulpExp_le_of_abs_lt q _ le_rfl (by simpa using h)) (ulpExp_ge q)

theorem roundNE_scaled (M e E : ℤ) (h : E ≤ e) :
    (roundNE ((M : ℚ) * 2 ^ e / 2 ^ E) : ℚ) * 2 ^ E = (M : ℚ) * 2 ^ e := by
  obtain ⟨k, rfl⟩ : ∃ k : ℕ, e = E + k := ⟨(e - E).toNat, by omega⟩
  have hne : (2 : ℚ) ^ E ≠ 0 := (two_zpow_pos _).ne'
  have h2 : (M : ℚ) * 2 ^ (E + (k : ℤ)) / 2 ^ E = ((M * 2 ^ k : ℤ) : ℚ) := by
    rw [div_eq_iff hne, zpow_add₀ (by norm_num : (2 : ℚ) ≠ 0), zpow_natCast]
    push_cast
    ring
  rw [h2, roundNE_intCast, zpow_add₀ (by norm_num : (2 : ℚ) ≠ 0), zpow_natCast]
  push_cast
  ring

/-- A significand of fewer than 25 bits scaled by a power of two that is at least
`2 ^ (-149)` is left unchanged by the rounding. -/
theorem roundFin_eq_self (M e : ℤ) (hM : |M| < 2 ^ 24) (he : -149 ≤ e) :
    roundFin ((M : ℚ) * 2 ^ e) = (M : ℚ) * 2 ^ e := by
  have hlt : |(M : ℚ) * 2 ^ e| < 2 ^ (e + 24) := by
    rw [abs_mul, abs_of_pos (two_zpow_pos e), zpow_add₀ (by norm_num : (2 : ℚ) ≠ 0), mul_comm]
    apply mul_lt_mul_of_pos_left _ (two_zpow_pos e)
    have : ((|M| : ℤ) : ℚ) < ((2 ^ 24 : ℤ) : ℚ) := by exact_mod_cast hM
    have h4 : (2 : ℚ) ^ (24 : ℤ) = 2 ^ 24 := by norm_num
    rw [h4]
    push_cast at this
    exact this
  have hE := ulpExp_le_of_abs_lt _ e he hlt
  unfold roundFin
  exact roundNE_scaled M e _ hE

theorem roundNE_zero : roundNE 0 = 0 := by
  have := roundNE_intCast 0
  simpa using this

theorem roundFin_nonneg {q : ℚ} (h : 0 ≤ q) : 0 ≤ roundFin q := by
  unfold roundFin
  apply mul_nonneg _ (two_zpow_pos _).le
  have h1 : roundNE 0 ≤ roundNE (q / 2 ^ ulpExp q) :=
    roundNE_mono (div_nonneg h (two_zpow_pos _).le)
  rw [roundNE_zero] at h1
  exact_mod_cast h1

theorem roundFin_nonpos {q : ℚ} (h : q ≤ 0) : roundFin q ≤ 0 := by
  unfold roundFin
  apply mul_nonpos_of_nonpos_of_nonneg _ (two_zpow_pos _).le
  have h1 : roundNE (q / 2 ^ ulpExp q) ≤ roundNE 0 :=
    roundNE_mono (div_nonpos_of_nonpos_of_nonneg h (two_zpow_pos _).le)
  rw [roundNE_zero] at h1
  exact_mod_cast h1

/-- The rounded significand is at most `2 ^ 24` in magnitude. -/
theorem roundNE_le_pow (q : ℚ) : (roundNE (q / 2 ^ ulpExp q) : ℚ) ≤ 2 ^ 24 := by
  have h1 : q / 2 ^ ulpExp q ≤ ((2 ^ 24 : ℤ) : ℚ) := by
    rw [div_le_iff₀ (two_zpow_pos _)]
    have h2 := abs_lt_ulpExp q
    rw [zpow_add₀ (by norm_num : (2 : ℚ) ≠ 0)] at h2
    have h3 := le_abs_self q
    push_cast
    have h4 : (2 : ℚ) ^ (24 : ℤ) = 2 ^ 24 := by norm_num
    rw [h4] at h2
    linarith
  have h5 := roundNE_mono h1
  rw [roundNE_intCast] at h5
  exact_mod_cast h5

theorem pow_le_roundNE (q : ℚ) : -(2 ^ 24 : ℚ) ≤ (roundNE (q / 2 ^ ulpExp q) : ℚ) := by
  have h1 : (((-(2 ^ 24) : ℤ)) : ℚ) ≤ q / 2 ^ ulpExp q := by
    rw [le_div_iff₀ (two_zpow_pos _)]
    have h2 := abs_lt_ulpExp q
    rw [zpow_add₀ (by norm_num : (2 : ℚ) ≠ 0)] at h2
    have h3 := neg_abs_le q
    push_cast
    have h4 : (2 : ℚ) ^ (24 : ℤ) = 2 ^ 24 := by norm_num
    rw [h4] at h2
    linarith
  have h5 := roundNE_mono h1
  rw [roundNE_intCast] at h5
  exact_mod_cast h5

/-- A normal positive argument has a rounded significand of at least `2 ^ 23`. -/
theorem pow_le_roundNE_of_normal (q : ℚ) (hq : 0 ≤ q) (h : -149 < ulpExp q) :
    (2 ^ 23 : ℚ) ≤ (roundNE (q / 2 ^ ulpExp q) : ℚ) := by
  have h1 : ((2 ^ 23 : ℤ) : ℚ) ≤ q / 2 ^ ulpExp q := by
    rw [le_div_iff₀ (two_zpow_pos _)]
    have h2 := le_abs_of_ulpExp q h
    rw [abs_of_nonneg hq, zpow_add₀ (by norm_num : (2 : ℚ) ≠ 0)] at h2
    have h4 : (2 : ℚ) ^ (23 : ℤ) = 2 ^ 23 := by norm_num
    rw [h4] at h2
    push_cast
    linarith
  have h5 := roundNE_mono h1
  rw [roundNE_intCast] at h5
  exact_mod_cast h5

theorem roundNE_le_of_normal (q : ℚ) (hq : q ≤ 0) (h : -149 < ulpExp q) :
    (roundNE (q / 2 ^ ulpExp q) : ℚ) ≤ -(2 ^ 23 : ℚ) := by
  have h1 : q / 2 ^ ulpExp q ≤ ((-(2 ^ 23) : ℤ) : ℚ) := by
    rw [div_le_iff₀ (two_zpow_pos _)]
    have h2 := le_abs_of_ulpExp q h
    rw [abs_of_nonpos hq, zpow_add₀ (by norm_num : (2 : ℚ) ≠ 0)] at h2
    have h4 : (2 : ℚ) ^ (23 : ℤ) = 2 ^ 23 := by norm_num
    rw [h4] at h2
    push_cast
    linarith
  have h5 := roundNE_mono h1
  rw [roundNE_intCast] at h5
  exact_mod_cast h5

theorem roundFin_mono_of_exp_eq {q r : ℚ} (h : q ≤ r) (he : ulpExp q = ulpExp r) :
    roundFin q ≤ roundFin r := by
  unfold roundFin
  rw [he]
  apply mul_le_mul_of_nonneg_right _ (two_zpow_pos _).le
  have h1 : roundNE (q / 2 ^ ulpExp r) ≤ roundNE (r / 2 ^ ulpExp r) :=
    roundNE_mono (div_le_div_of_nonneg_right h (two_zpow_pos _).le)
  exact_mod_cast h1

theorem roundFin_mono_nonneg {q r : ℚ} (hq : 0 ≤ q) (h : q ≤ r) : roundFin q ≤ roundFin r := by
  have hr : 0 ≤ r := le_trans hq h
  have hexp : ulpExp q ≤ ulpExp r :=
    ulpExp_mono_abs (by rw [abs_of_nonneg hq, abs_of_nonneg hr]; exact h)
  rcases eq_or_lt_of_le hexp with he | he
  · exact roundFin_mono_of_exp_eq h he
  · have h1 := roundNE_le_pow q
    have h2 := pow_le_roundNE_of_normal r hr (lt_of_le_of_lt (ulpExp_ge q) he)
    have h3 : (2 : ℚ) ^ (ulpExp q + 24) ≤ 2 ^ (ulpExp r + 23) := two_zpow_le (by omega)
    rw [zpow_add₀ (by norm_num : (2 : ℚ) ≠ 0), zpow_add₀ (by norm_num : (2 : ℚ) ≠ 0)] at h3
    have h4 : (2 : ℚ) ^ (24 : ℤ) = 2 ^ 24 := by norm_num
    have h5 : (2 : ℚ) ^ (23 : ℤ) = 2 ^ 23 := by norm_num
    rw [h4, h5] at h3
    unfold roundFin
    have hpq := two_zpow_pos (ulpExp q)
    have hpr := two_zpow_pos (ulpExp r)
    calc (roundNE (q / 2 ^ ulpExp q) : ℚ) * 2 ^ ulpExp q
        ≤ 2 ^ 24 * 2 ^ ulpExp q := mul_le_mul_of_nonneg_right h1 hpq.le
      _ = 2 ^ ulpExp q * 2 ^ 24 := mul_comm _ _
      _ ≤ 2 ^ ulpExp r * 2 ^ 23 := h3
      _ = 2 ^ 23 * 2 ^ ulpExp r := mul_comm _ _
      _ ≤ (roundNE (r / 2 ^ ulpExp r) : ℚ) * 2 ^ ulpExp r :=
          mul_le_mul_of_nonneg_right h2 hpr.le

theorem roundFin_mono_nonpos {q r : ℚ} (hr : r ≤ 0) (h : q ≤ r) : roundFin q ≤ roundFin r := by
  have hq : q ≤ 0 := le_trans h hr
  have hexp : ulpExp r ≤ ulpExp q :=
    ulpExp_mono_abs (by rw [abs_of_nonpos hq, abs_of_nonpos hr]; linarith)
  rcases eq_or_lt_of_le hexp with he | he
  · exact roundFin_mono_of_exp_eq h he.symm
  · have h1 := pow_le_roundNE r
    have h2 := roundNE_le_of_normal q hq (lt_of_le_of_lt (ulpExp_ge r) he)
    have h3 : (2 : ℚ) ^ (ulpExp r + 24) ≤ 2 ^ (ulpExp q + 23) := two_zpow_le (by omega)
    rw [zpow_add₀ (by norm_num : (2 : ℚ) ≠ 0), zpow_add₀ (by norm_num : (2 : ℚ) ≠ 0)] at h3
    have h4 : (2 : ℚ) ^ (24 : ℤ) = 2 ^ 24 := by norm_num
    have h5 : (2 : ℚ) ^ (23 : ℤ) = 2 ^ 23 := by norm_num
    rw [h4, h5] at h3
    unfold roundFin
    have hpq := two_zpow_pos (ulpExp q)
    have hpr := two_zpow_pos (ulpExp r)
    calc (roundNE (q / 2 ^ ulpExp q) : ℚ) * 2 ^ ulpExp q
        ≤ -(2 ^ 23) * 2 ^ ulpExp q := mul_le_mul_of_nonneg_right h2 hpq.le
      _ = -(2 ^ ulpExp q * 2 ^ 23) := by ring
      _ ≤ -(2 ^ ulpExp r * 2 ^ 24) := neg_le_neg h3
      _ = -(2 ^ 24) * 2 ^ ulpExp r := by ring
      _ ≤ (roundNE (r / 2 ^ ulpExp r) : ℚ) * 2 ^ ulpExp r :=
          mul_le_mul_of_nonneg_right h1 hpr.le

/-- Rounding to binary32 precision is monotone. -/
theorem roundFin_mono {q r : ℚ} (h : q ≤ r) : roundFin q ≤ roundFin r := by
  rcases le_total 0 q with hq | hq
  · exact roundFin_mono_nonneg hq h
  · rcases le_total r 0 with hr | hr
    · exact roundFin_mono_nonpos hr h
    · exact le_trans (roundFin_nonpos hq) (roundFin_nonneg hr)

theorem F32.le_refl (x : F32) : x.le x := by
  cases x <;> simp [F32.le]

theorem F32.le_trans {x y z : F32} (h1 : x.le y) (h2 : y.le z) : x.le z := by
  cases x <;> cases y <;> cases z <;> simp_all [F32.le]
  exact h1.trans h2

/-- Rounding to binary32 is monotone, overflow to the infinities included. -/
theorem round32_mono {q r : ℚ} (h : q ≤ r) : (round32 q).le (round32 r) := by
  have hm := roundFin_mono h
  have hB : (0 : ℚ) < 2 ^ 128 := by positivity
  unfold round32
  generalize (2 : ℚ) ^ 128 = B at hB ⊢
  split_ifs <;> simp only [F32.le] <;> linarith

/-- The finite binary32 values are left unchanged by the rounding. -/
theorem round32_eq_self (M e : ℤ) (hM : |M| < 2 ^ 24) (he : -149 ≤ e) (he2 : e ≤ 104) :
    round32 ((M : ℚ) * 2 ^ e) = F32.fin ((M : ℚ) * 2 ^ e) := by
  have habs : |(M : ℚ) * 2 ^ e| < 2 ^ 128 := by
    rw [abs_mul, abs_of_pos (two_zpow_pos e)]
    have h1 : (|(M : ℚ)|) < 2 ^ 24 := by
      have : ((|M| : ℤ) : ℚ) < ((2 ^ 24 : ℤ) : ℚ) := by exact_mod_cast hM
      push_cast at this
      exact this
    have h2 : (2 : ℚ) ^ e ≤ 2 ^ (104 : ℤ) := two_zpow_le he2
    have h3 : (2 : ℚ) ^ (104 : ℤ) = 2 ^ 104 := by norm_num
    rw [h3] at h2
    calc |(M : ℚ)| * 2 ^ e ≤ |(M : ℚ)| * 2 ^ 104 :=
          mul_le_mul_of_nonneg_left h2 (abs_nonneg _)
      _ < 2 ^ 24 * 2 ^ 104 := mul_lt_mul_of_pos_right h1 (by norm_num)
      _ = 2 ^ 128 := by norm_num
  have h := abs_lt.mp habs
  unfold round32
  rw [roundFin_eq_self M e hM he, if_neg (not_le.mpr h.2), if_neg (not_le.mpr _)]
  linarith [h.1]

/-- Integers below `2 ^ 24` in magnitude are binary32 values. -/
theorem round32_intCast (n : ℤ) (h : |n| < 2 ^ 24) : round32 (n : ℚ) = F32.fin (n : ℚ) := by
  have := round32_eq_self n 0 h (by norm_num) (by norm_num)
  simpa using this

/-- Half-integers below `2 ^ 23` in magnitude are binary32 values. -/
theorem round32_half (n : ℤ) (h : |n| < 2 ^ 24) :
    round32 ((n : ℚ) / 2) = F32.fin ((n : ℚ) / 2) := by
  have := round32_eq_self n (-1) h (by norm_num) (by norm_num)
  have h2 : (n : ℚ) * 2 ^ (-1 : ℤ) = (n : ℚ) / 2 := by
    rw [zpow_neg_one]; ring
  rw [h2] at this
  exact this

theorem F32.ninf_le (x : F32) : F32.ninf.le x := by
  cases x <;> simp [F32.le]

theorem F32.le_pinf (x : F32) : x.le F32.pinf := by
  cases x <;> simp [F32.le]

theorem F32.add_mono {x y : F32} (c : ℚ) (h : x.le y) : (x.add c).le (y.add c) := by
  cases x <;> cases y <;>
    first
    | exact F32.ninf_le _
    | exact F32.le_pinf _
    | exact round32_mono (add_le_add_right h c)
    | simp [F32.le] at h

theorem F32.mul_mono {x y : F32} {c : ℚ} (hc : 0 < c) (h : x.le y) :
    (x.mul c).le (y.mul c) := by
  cases x <;> cases y <;> simp only [F32.mul, if_pos hc] <;>
    first
    | exact F32.ninf_le _
    | exact F32.le_pinf _
    | exact round32_mono (mul_le_mul_of_nonneg_right h hc.le)
    | simp [F32.le] at h

theorem F32.div_mono {x y : F32} {c : ℚ} (hc : 0 < c) (h : x.le y) :
    (x.div c).le (y.div c) := by
  cases x <;> cases y <;> simp only [F32.div, if_pos hc] <;>
    first
    | exact F32.ninf_le _
    | exact F32.le_pinf _
    | exact round32_mono (div_le_div_of_nonneg_right h hc.le)
    | simp [F32.le] at h

theorem F32.floor_mono {x y : F32} (h : x.le y) : (x.floor).le (y.floor) := by
  cases x with
  | ninf => exact F32.ninf_le _
  | pinf => cases y <;> first | exact F32.le_pinf _ | simp [F32.le] at h
  | fin a =>
    cases y with
    | pinf => exact F32.le_pinf _
    | ninf => simp [F32.le] at h
    | fin b =>
      have h2 : ((⌊a⌋ : ℤ) : ℚ) ≤ ((⌊b⌋ : ℤ) : ℚ) := by exact_mod_cast Int.floor_mono h
      exact h2

theorem roundFin_intCast (n : ℤ) (h : |n| < 2 ^ 24) : roundFin (n : ℚ) = (n : ℚ) := by
  have := roundFin_eq_self n 0 h (by norm_num)
  simpa using this

theorem roundFin_div_pow (N : ℤ) (k : ℕ) (hN : |N| < 2 ^ 24) (hk : k ≤ 149) :
    roundFin ((N : ℚ) / 2 ^ k) = (N : ℚ) / 2 ^ k := by
  have := roundFin_eq_self N (-(k : ℤ)) hN (by omega)
  rw [zpow_neg, zpow_natCast, ← div_eq_mul_inv] at this
  exact this

/-- A value fixed by the rounding is a significand of fewer than 25 bits scaled by the
unit in the last place. -/
theorem float_decomp (q : ℚ) (hq : roundFin q = q) :
    ∃ M : ℤ, |M| < 2 ^ 24 ∧ q = (M : ℚ) * 2 ^ ulpExp q := by
  refine ⟨roundNE (q / 2 ^ ulpExp q), ?_, ?_⟩
  · have h1 := abs_lt_ulpExp q
    have h2 : |q| = |(roundNE (q / 2 ^ ulpExp q) : ℚ)| * 2 ^ ulpExp q := by
      nth_rewrite 1 [← hq]
      unfold roundFin
      rw [abs_mul, abs_of_pos (two_zpow_pos _)]
    rw [h2, zpow_add₀ (by norm_num : (2 : ℚ) ≠ 0), mul_comm] at h1
    have h3 := lt_of_mul_lt_mul_left h1 (two_zpow_pos _).le
    have h4 : (2 : ℚ) ^ (24 : ℤ) = ((2 ^ 24 : ℤ) : ℚ) := by norm_num
    rw [h4, ← Int.cast_abs] at h3
    exact_mod_cast h3
  · nth_rewrite 1 [← hq]
    rfl

/-- The rounding of `z` has the floor of `z` when a binary32 value lies between `z` and
the next integer. -/
theorem floor_roundFin_of_between (z f : ℚ) (hz : |⌊z⌋| < 2 ^ 24) (hf : roundFin f = f)
    (h1 : z ≤ f) (h2 : f < ⌊z⌋ + 1) : ⌊roundFin z⌋ = ⌊z⌋ := by
  rw [Int.floor_eq_iff]
  constructor
  · have := roundFin_mono (Int.floor_le z)
    rw [roundFin_intCast _ hz] at this
    exact this
  · have := roundFin_mono h1
    rw [hf] at this
    linarith

theorem F32.toInt_floor (z : ℚ) : (F32.fin z).floor.toInt = ⌊z⌋ := by
  simp [F32.floor, F32.toInt]

theorem encode16s_of_add_fin (x : F32) (z : ℚ) (h : x.add (1 / 2) = F32.fin z) :
    encode16s x = if 32767 < ⌊z⌋ then 0x7FFF else if ⌊z⌋ < -32768 then 0x8000 else u16 ⌊z⌋ := by
  unfold encode16s
  rw [h]
  simp only [F32.toInt_floor]
  have h1 : (F32.fin z).floor.gt 32767 = decide (32767 < ⌊z⌋) := by
    simp only [F32.floor, F32.gt]
    congr 1
    apply propext
    constructor <;> intro h <;> exact_mod_cast h
  have h2 : (F32.fin z).floor.lt (-32768) = decide (⌊z⌋ < -32768) := by
    simp only [F32.floor, F32.lt]
    congr 1
    apply propext
    constructor <;> intro h <;> exact_mod_cast h
  rw [h1, h2]
  simp

theorem encode16u_of_add_fin (x : F32) (z : ℚ) (h : x.add (1 / 2) = F32.fin z) :
    encode16u x = if 65535 < ⌊z⌋ then 0xFFFF else if ⌊z⌋ < 0 then 0 else u16 ⌊z⌋ := by
  unfold encode16u
  rw [h]
  simp only [F32.toInt_floor]
  have h1 : (F32.fin z).floor.gt 65535 = decide (65535 < ⌊z⌋) := by
    simp only [F32.floor, F32.gt]
    congr 1
    apply propext
    constructor <;> intro h <;> exact_mod_cast h
  have h2 : (F32.fin z).floor.lt 0 = decide (⌊z⌋ < 0) := by
    simp only [F32.floor, F32.lt]
    congr 1
    apply propext
    constructor <;> intro h <;> exact_mod_cast h
  rw [h1, h2]
  simp

theorem encode16s_of_add_pinf (x : F32) (h : x.add (1 / 2) = F32.pinf) :
    encode16s x = 0x7FFF := by
  unfold encode16s
  rw [h]
  simp [F32.floor, F32.gt]

theorem encode16s_of_add_ninf (x : F32) (h : x.add (1 / 2) = F32.ninf) :
    encode16s x = 0x8000 := by
  unfold encode16s
  rw [h]
  simp [F32.floor, F32.gt, F32.lt]

theorem encode16u_of_add_pinf (x : F32) (h : x.add (1 / 2) = F32.pinf) :
    encode16u x = 0xFFFF := by
  unfold encode16u
  rw [h]
  simp [F32.floor, F32.gt]

theorem encode16u_of_add_ninf (x : F32) (h : x.add (1 / 2) = F32.ninf) :
    encode16u x = 0 := by
  unfold encode16u
  rw [h]
  simp [F32.floor, F32.gt, F32.lt]

theorem ulpExp_le_neg_one (q : ℚ) (h : |q| ≤ 2 ^ 22) : ulpExp q ≤ -1 := by
  apply ulpExp_le_of_abs_lt q (-1) (by norm_num)
  have : (2 : ℚ) ^ ((-1 : ℤ) + 24) = 2 ^ 23 := by norm_num
  rw [this]
  exact lt_of_le_of_lt h (by norm_num)

theorem float_decomp_neg (q : ℚ) (hq : roundFin q = q) (hE : ulpExp q ≤ -1) :
    ∃ (M : ℤ) (k : ℕ), |M| < 2 ^ 24 ∧ k ≤ 148 ∧ ulpExp q = -((k : ℤ) + 1)
      ∧ q = (M : ℚ) / 2 ^ (k + 1) := by
  obtain ⟨M, hM, hqM⟩ := float_decomp q hq
  have hge := ulpExp_ge q
  refine ⟨M, (-1 - ulpExp q).toNat, hM, by omega, by omega, ?_⟩
  have h1 : ulpExp q = -(((-1 - ulpExp q).toNat + 1 : ℕ) : ℤ) := by
    push_cast
    omega
  nth_rewrite 1 [hqM]
  rw [h1, zpow_neg, zpow_natCast, ← div_eq_mul_inv]
  congr 3
  omega

/-- Integer core of the rounding argument: an odd 25-bit numerator `N = M + K` rounded up
to even does not reach the next multiple of `2 * K`. -/
theorem cross_int (K c m N N₂ : ℤ) (hKc : K * c = 2 ^ 23) (hK : 1 ≤ K)
    (h1 : N < 2 * m * K) (h2 : 2 ^ 24 ≤ N) (h3 : N < 2 ^ 24 + K) (h5 : 2 * N₂ ≤ N + 1) :
    N₂ < m * K := by
  by_contra h4
  push_neg at h4
  rcases le_or_lt m c with hmc | hmc
  · have := mul_le_mul_of_nonneg_right hmc (by omega : (0 : ℤ) ≤ K)
    have h6 : c * K = 2 ^ 23 := by rw [mul_comm]; exact hKc
    have h7 : 2 * m * K = 2 * (m * K) := by ring
    omega
  · have := mul_le_mul_of_nonneg_right (by omega : c + 1 ≤ m) (by omega : (0 : ℤ) ≤ K)
    have h6 : (c + 1) * K = 2 ^ 23 + K := by rw [add_mul, mul_comm c K, hKc]; ring
    omega

theorem floor_add_half_pos (q : ℚ) (hq : roundFin q = q) (h1 : 1 / 2 ≤ q) (h2 : q ≤ 2 ^ 22) :
    ⌊roundFin (q + 1 / 2)⌋ = ⌊q + 1 / 2⌋ := by
  have hq0 : 0 ≤ q := by linarith
  have hE := ulpExp_le_neg_one q (by rw [abs_of_nonneg hq0]; exact h2)
  obtain ⟨M, k, hM, -, hEk, hqk⟩ := float_decomp_neg q hq hE
  have hk : k ≤ 23 := by
    by_contra hc
    have h3 := abs_lt_ulpExp q
    rw [abs_of_nonneg hq0] at h3
    have h4 : (2 : ℚ) ^ (ulpExp q + 24) ≤ 2 ^ (-1 : ℤ) := two_zpow_le (by omega)
    have h5 : (2 : ℚ) ^ (-1 : ℤ) = 1 / 2 := by norm_num
    rw [h5] at h4
    linarith
  have hpk : (0 : ℚ) < 2 ^ (k + 1) := by positivity
  have hMq : (2 : ℚ) ^ k ≤ (M : ℚ) := by
    rw [hqk, le_div_iff₀ hpk, pow_succ] at h1
    linarith
  have hMk : (2 : ℤ) ^ k ≤ M := by exact_mod_cast hMq
  have hKpos : (1 : ℤ) ≤ 2 ^ k := one_le_pow₀ (by norm_num)
  have hK23 : (2 : ℤ) ^ k ≤ 2 ^ 23 := pow_le_pow_right₀ (by norm_num) hk
  have hKc : (2 : ℤ) ^ k * 2 ^ (23 - k) = 2 ^ 23 := by
    rw [← pow_add]; congr 1; omega
  have hMlt : M < 2 ^ 24 := (abs_lt.mp hM).2
  have hz : q + 1 / 2 = ((M + 2 ^ k : ℤ) : ℚ) / 2 ^ (k + 1) := by
    rw [hqk, pow_succ]
    push_cast
    field_simp
    ring
  have hz0 : 0 ≤ q + 1 / 2 := by linarith
  have hfl0 : 0 ≤ ⌊q + 1 / 2⌋ := Int.floor_nonneg.mpr hz0
  have hfl1 : ⌊q + 1 / 2⌋ < 2 ^ 24 := by
    have h3 : ((⌊q + 1 / 2⌋ : ℤ) : ℚ) < ((2 ^ 24 : ℤ) : ℚ) := by
      have := Int.floor_le (q + 1 / 2)
      push_cast
      linarith
    exact_mod_cast h3
  have hflabs : |⌊q + 1 / 2⌋| < 2 ^ 24 := by rw [abs_of_nonneg hfl0]; exact hfl1
  by_cases hN : M + 2 ^ k < 2 ^ 24
  · rw [hz, roundFin_div_pow _ (k + 1) (by rw [abs_of_nonneg (by omega)]; exact hN) (by omega)]
  · push_neg at hN
    have hup : ((M + 2 ^ k : ℤ) : ℚ) / 2 ^ (k + 1) < (((⌊q + 1 / 2⌋ + 1 : ℤ)) : ℚ) := by
      rw [← hz]; push_cast; exact Int.lt_floor_add_one _
    have hN1 : M + 2 ^ k < 2 * (⌊q + 1 / 2⌋ + 1) * 2 ^ k := by
      rw [div_lt_iff₀ hpk, pow_succ] at hup
      have h3 : ((M + 2 ^ k : ℤ) : ℚ) < ((2 * (⌊q + 1 / 2⌋ + 1) * 2 ^ k : ℤ) : ℚ) := by
        push_cast at hup ⊢
        linarith
      exact_mod_cast h3
    have hcross := cross_int (2 ^ k) (2 ^ (23 - k)) (⌊q + 1 / 2⌋ + 1) (M + 2 ^ k)
      ((M + 2 ^ k + 1) / 2) hKc hKpos hN1 hN (by omega) (by omega)
    have hpk0 : (0 : ℚ) < 2 ^ k := by positivity
    apply floor_roundFin_of_between _ ((((M + 2 ^ k + 1) / 2 : ℤ) : ℚ) / 2 ^ k) hflabs
    · exact roundFin_div_pow _ k (by rw [abs_of_nonneg (by omega)]; omega) (by omega)
    · rw [hz, div_le_div_iff₀ hpk hpk0, pow_succ]
      have h3 : M + 2 ^ k ≤ 2 * ((M + 2 ^ k + 1) / 2) := by omega
      have h4 : ((M + 2 ^ k : ℤ) : ℚ) ≤ ((2 * ((M + 2 ^ k + 1) / 2) : ℤ) : ℚ) := by
        exact_mod_cast h3
      have h5 : (0 : ℚ) ≤ 2 ^ k := hpk0.le
      have := mul_le_mul_of_nonneg_right h4 h5
      push_cast at this ⊢
      linarith
    · rw [div_lt_iff₀ hpk0]
      have h3 : (((M + 2 ^ k + 1) / 2 : ℤ) : ℚ) < (((⌊q + 1 / 2⌋ + 1) * 2 ^ k : ℤ) : ℚ) := by
        exact_mod_cast hcross
      push_cast at h3 ⊢
      exact h3

theorem roundFin_add_half_neg (q : ℚ) (hq : roundFin q = q) (h1 : q ≤ -(1 / 2))
    (h2 : -(2 ^ 22) ≤ q) : roundFin (q + 1 / 2) = q + 1 / 2 := by
  have hq0 : q ≤ 0 := by linarith
  have hE := ulpExp_le_neg_one q (by rw [abs_of_nonpos hq0]; linarith)
  obtain ⟨M, k, hM, hk, -, hqk⟩ := float_decomp_neg q hq hE
  have hpk : (0 : ℚ) < 2 ^ (k + 1) := by positivity
  have hMq : (M : ℚ) ≤ -(2 ^ k) := by
    rw [hqk, div_le_iff₀ hpk, pow_succ] at h1
    linarith
  have hMk : M ≤ -(2 ^ k) := by exact_mod_cast hMq
  have hKpos : (1 : ℤ) ≤ 2 ^ k := one_le_pow₀ (by norm_num)
  have hMgt : -(2 ^ 24) < M := (abs_lt.mp hM).1
  have hz : q + 1 / 2 = ((M + 2 ^ k : ℤ) : ℚ) / 2 ^ (k + 1) := by
    rw [hqk, pow_succ]
    push_cast
    field_simp
    ring
  rw [hz]
  exact roundFin_div_pow _ (k + 1) (by rw [abs_of_nonpos (by omega)]; omega) (by omega)

theorem floor_add_half_small (q : ℚ) (hq : roundFin q = q) (hne : q ≠ 1 / 2 - 1 / 2 ^ 25)
    (h1 : -(1 / 2) < q) (h2 : q < 1 / 2) : ⌊roundFin (q + 1 / 2)⌋ = ⌊q + 1 / 2⌋ := by
  have hfl : ⌊q + 1 / 2⌋ = 0 := by
    rw [Int.floor_eq_iff]
    constructor <;> norm_num <;> linarith
  by_cases hz : q + 1 / 2 ≤ ((2 ^ 24 - 1 : ℤ) : ℚ) / 2 ^ 24
  · apply floor_roundFin_of_between _ _ _ (roundFin_div_pow (2 ^ 24 - 1) 24
      (by norm_num) (by norm_num)) hz
    · rw [hfl]; norm_num
    · rw [hfl]; norm_num
  · exfalso
    push_neg at hz
    have hq0 : 0 ≤ q := by
      have : ((2 ^ 24 - 1 : ℤ) : ℚ) / 2 ^ 24 = 1 - 1 / 2 ^ 24 := by norm_num
      rw [this] at hz
      have : (1 : ℚ) / 2 ^ 24 ≤ 1 / 2 := by norm_num
      linarith
    have hexp : ulpExp q = -25 := by
      apply ulpExp_eq q (-25) (by norm_num)
      · rw [abs_of_nonneg hq0]
        norm_num at hz ⊢
        linarith
      · rw [abs_of_nonneg hq0]
        norm_num
        linarith
    obtain ⟨M, hM, hqM⟩ := float_decomp q hq
    rw [hexp] at hqM
    have h25 : (2 : ℚ) ^ (-25 : ℤ) = 1 / 2 ^ 25 := by norm_num
    rw [h25] at hqM
    have hM1 : ((2 ^ 24 - 2 : ℤ) : ℚ) < (M : ℚ) := by
      rw [hqM] at hz
      norm_num at hz ⊢
      linarith
    have hM2 : (M : ℚ) < ((2 ^ 24 : ℤ) : ℚ) := by
      rw [hqM] at h2
      norm_num at h2 ⊢
      linarith
    have hM3 : 2 ^ 24 - 2 < M := by exact_mod_cast hM1
    have hM4 : M < 2 ^ 24 := by exact_mod_cast hM2
    have hM5 : M = 2 ^ 24 - 1 := by omega
    apply hne
    rw [hqM, hM5]
    norm_num

/-- The floor of the rounded sum `q + 0.5f` is the floor of the exact sum for every
binary32 value `q` of magnitude at most `2 ^ 22` other than `0.5 - 2 ^ (-25)`. -/
theorem floor_add_half (q : ℚ) (hq : roundFin q = q) (hne : q ≠ 1 / 2 - 1 / 2 ^ 25)
    (hlo : -(2 ^ 22) ≤ q) (hhi : q ≤ 2 ^ 22) : ⌊roundFin (q + 1 / 2)⌋ = ⌊q + 1 / 2⌋ := by
  rcases le_or_lt q (-(1 / 2)) with h1 | h1
  · rw [roundFin_add_half_neg q hq h1 hlo]
  · rcases lt_or_le q (1 / 2) with h2 | h2
    · exact floor_add_half_small q hq hne h1 h2
    · exact floor_add_half_pos q hq h2 hhi

theorem roundFin_of_round32 {q : ℚ} (h : round32 q = F32.fin q) : roundFin q = q := by
  unfold round32 at h
  split_ifs at h
  exact F32.fin.inj h

theorem round32_of_bounds (q : ℚ) (B : ℤ) (hB : |B| < 2 ^ 24) (h1 : -(B : ℚ) ≤ q)
    (h2 : q ≤ (B : ℚ)) : round32 q = F32.fin (roundFin q) := by
  have h3 := roundFin_mono h2
  have h4 := roundFin_mono h1
  have hnB : |(-B)| < 2 ^ 24 := by rw [abs_neg]; exact hB
  have h5 := roundFin_intCast (-B) hnB
  push_cast at h5
  rw [roundFin_intCast B hB] at h3
  rw [h5] at h4
  have h6 : (B : ℚ) < 2 ^ 24 := by
    have : ((B : ℤ) : ℚ) < ((2 ^ 24 : ℤ) : ℚ) := by exact_mod_cast (abs_lt.mp hB).2
    push_cast at this
    exact this
  have h7 : (2 : ℚ) ^ 24 < 2 ^ 128 := by norm_num
  unfold round32
  rw [if_neg (by linarith), if_neg (by linarith)]

theorem s16_u16 (n : ℤ) (h1 : -32768 ≤ n) (h2 : n ≤ 32767) : s16 (u16 n) = n := by
  unfold s16 u16
  have h3 : 0 ≤ n % 2 ^ 16 := Int.emod_nonneg _ (by norm_num)
  split_ifs with h <;> omega

theorem encode16s_eq_max (x : F32) (h : (F32.fin (65535 / 2)).le x) : encode16s x = 0x7FFF := by
  have h1 := F32.add_mono (1 / 2) h
  have h2 : (F32.fin (65535 / 2)).add (1 / 2) = F32.fin 32768 := by
    have := round32_intCast 32768 (by norm_num)
    simp only [F32.add]
    norm_num at this ⊢
    exact this
  rw [h2] at h1
  cases hx : x.add (1 / 2) with
  | pinf => exact encode16s_of_add_pinf x hx
  | ninf => rw [hx] at h1; simp [F32.le] at h1
  | fin z =>
    rw [hx] at h1
    have hz : (32768 : ℚ) ≤ z := h1
    have hfl : (32768 : ℤ) ≤ ⌊z⌋ := Int.le_floor.mpr (by exact_mod_cast hz)
    rw [encode16s_of_add_fin x z hx, if_pos (by omega)]

theorem encode16s_eq_min (x : F32) (h : x.le (F32.fin (-32768))) : encode16s x = 0x8000 := by
  have h1 := F32.add_mono (1 / 2) h
  have h2 : (F32.fin (-32768)).add (1 / 2) = F32.fin (-65535 / 2) := by
    have := round32_half (-65535) (by norm_num)
    simp only [F32.add]
    norm_num at this ⊢
    exact this
  rw [h2] at h1
  cases hx : x.add (1 / 2) with
  | ninf => exact encode16s_of_add_ninf x hx
  | pinf => rw [hx] at h1; simp [F32.le] at h1
  | fin z =>
    rw [hx] at h1
    have hz : z ≤ (-65535 / 2 : ℚ) := h1
    have hfl : ⌊z⌋ ≤ (-32768 : ℤ) := by
      have : ⌊z⌋ < (-32767 : ℤ) := Int.floor_lt.mpr (by push_cast; linarith)
      omega
    rw [encode16s_of_add_fin x z hx, if_neg (by omega)]
    split_ifs with h3
    · rfl
    · have : ⌊z⌋ = -32768 := by omega
      rw [this]
      decide

theorem encode16u_eq_max (x : F32) (h : (F32.fin 65535).le x) : encode16u x = 0xFFFF := by
  have h1 := F32.add_mono (1 / 2) h
  have h2 : (F32.fin 65535).add (1 / 2) = F32.fin (131071 / 2) := by
    have := round32_half 131071 (by norm_num)
    simp only [F32.add]
    norm_num at this ⊢
    exact this
  rw [h2] at h1
  cases hx : x.add (1 / 2) with
  | pinf => exact encode16u_of_add_pinf x hx
  | ninf => rw [hx] at h1; simp [F32.le] at h1
  | fin z =>
    rw [hx] at h1
    have hz : (131071 / 2 : ℚ) ≤ z := h1
    have hfl : (65535 : ℤ) ≤ ⌊z⌋ := Int.le_floor.mpr (by push_cast; linarith)
    rw [encode16u_of_add_fin x z hx]
    split_ifs with h3 h4
    · rfl
    · omega
    · have : ⌊z⌋ = 65535 := by omega
      rw [this]
      decide

theorem encode16u_eq_min (x : F32) (h : x.le (F32.fin 0)) : encode16u x = 0 := by
  have h1 := F32.add_mono (1 / 2) h
  have h2 : (F32.fin 0).add (1 / 2) = F32.fin (1 / 2) := by
    have := round32_half 1 (by norm_num)
    simp only [F32.add]
    norm_num at this ⊢
    exact this
  rw [h2] at h1
  cases hx : x.add (1 / 2) with
  | ninf => exact encode16u_of_add_ninf x hx
  | pinf => rw [hx] at h1; simp [F32.le] at h1
  | fin z =>
    rw [hx] at h1
    have hz : z ≤ (1 / 2 : ℚ) := h1
    have hfl : ⌊z⌋ ≤ (0 : ℤ) := by
      have : ⌊z⌋ < (1 : ℤ) := Int.floor_lt.mpr (by push_cast; linarith)
      omega
    rw [encode16u_of_add_fin x z hx, if_neg (by omega)]
    split_ifs with h3
    · rfl
    · have : ⌊z⌋ = 0 := by omega
      rw [this]
      decide

/-- The function `encode16s` agrees with the quantisation over the reals at every
binary32 value but `0.5 - 2 ^ (-25)`. -/
theorem encode16s_eq_spec (x : F32) (hx : x.isFloat) (hne : x ≠ F32.fin (1 / 2 - 1 / 2 ^ 25)) :
    encode16s x = specRound16s x := by
  cases x with
  | pinf => exact encode16s_of_add_pinf _ rfl
  | ninf => exact encode16s_of_add_ninf _ rfl
  | fin q =>
    have hq : roundFin q = q := roundFin_of_round32 hx
    have hneq : q ≠ 1 / 2 - 1 / 2 ^ 25 := fun h => hne (by rw [h])
    rcases lt_or_le q (-(2 ^ 22)) with h1 | h1
    · rw [encode16s_eq_min _ (show (F32.fin q).le (F32.fin (-32768)) from by
        show q ≤ -32768
        linarith)]
      have hfl : ⌊q + 1 / 2⌋ < -32768 := Int.floor_lt.mpr (by push_cast; linarith)
      simp only [specRound16s]
      rw [if_neg (by omega), if_pos hfl]
    · rcases lt_or_le (2 ^ 22) q with h2 | h2
      · rw [encode16s_eq_max _ (show (F32.fin (65535 / 2)).le (F32.fin q) from by
          show (65535 / 2 : ℚ) ≤ q
          linarith)]
        have hfl : 32767 < ⌊q + 1 / 2⌋ := by
          have : (32768 : ℤ) ≤ ⌊q + 1 / 2⌋ := Int.le_floor.mpr (by push_cast; linarith)
          omega
        simp only [specRound16s]
        rw [if_pos hfl]
      · have hadd : (F32.fin q).add (1 / 2) = F32.fin (roundFin (q + 1 / 2)) :=
          round32_of_bounds _ (2 ^ 23) (by norm_num) (by push_cast; linarith)
            (by push_cast; linarith)
        rw [encode16s_of_add_fin _ _ hadd, floor_add_half q hq hneq h1 h2]
        rfl

theorem toNat_eq_u16 (n : ℤ) (h1 : 0 ≤ n) (h2 : n ≤ 65535) : n.toNat = u16 n := by
  unfold u16
  omega

/-- The function `encode16u` agrees with the quantisation over the reals at every
binary32 value but `0.5 - 2 ^ (-25)`. -/
theorem encode16u_eq_spec (x : F32) (hx : x.isFloat) (hne : x ≠ F32.fin (1 / 2 - 1 / 2 ^ 25)) :
    encode16u x = specRound16u x := by
  cases x with
  | pinf => exact encode16u_of_add_pinf _ rfl
  | ninf => exact encode16u_of_add_ninf _ rfl
  | fin q =>
    have hq : roundFin q = q := roundFin_of_round32 hx
    have hneq : q ≠ 1 / 2 - 1 / 2 ^ 25 := fun h => hne (by rw [h])
    rcases lt_or_le q (-(2 ^ 22)) with h1 | h1
    · rw [encode16u_eq_min _ (show (F32.fin q).le (F32.fin 0) from by
        show q ≤ 0
        linarith)]
      have hfl : ⌊q + 1 / 2⌋ < 0 := Int.floor_lt.mpr (by push_cast; linarith)
      simp only [specRound16u]
      rw [if_neg (by omega), if_pos hfl]
    · rcases lt_or_le (2 ^ 22) q with h2 | h2
      · rw [encode16u_eq_max _ (show (F32.fin 65535).le (F32.fin q) from by
          show (65535 : ℚ) ≤ q
          linarith)]
        have hfl : 65535 < ⌊q + 1 / 2⌋ := by
          have : (65536 : ℤ) ≤ ⌊q + 1 / 2⌋ := Int.le_floor.mpr (by push_cast; linarith)
          omega
        simp only [specRound16u]
        rw [if_pos hfl]
      · have hadd : (F32.fin q).add (1 / 2) = F32.fin (roundFin (q + 1 / 2)) :=
          round32_of_bounds _ (2 ^ 23) (by norm_num) (by push_cast; linarith)
            (by push_cast; linarith)
        rw [encode16u_of_add_fin _ _ hadd, floor_add_half q hq hneq h1 h2]
        simp only [specRound16u]
        split_ifs with h3 h4
        · rfl
        · rfl
        · exact (toNat_eq_u16 _ (by omega) (by omega)).symm

/-! ## Auxiliary facts: evaluation of the codec -/

theorem fin_ne_half_ulp_of_int (n : ℤ) : F32.fin (n : ℚ) ≠ F32.fin (1 / 2 - 1 / 2 ^ 25) := by
  intro h
  have h1 : (n : ℚ) = 1 / 2 - 1 / 2 ^ 25 := F32.fin.inj h
  have h2 : (0 : ℚ) < (n : ℚ) := by rw [h1]; norm_num
  have h3 : (n : ℚ) < 1 := by rw [h1]; norm_num
  have h4 : 0 < n := by exact_mod_cast h2
  have h5 : n < 1 := by exact_mod_cast h3
  omega

theorem floor_int_add_half (n : ℤ) : ⌊(n : ℚ) + 1 / 2⌋ = n := by
  rw [Int.floor_eq_iff]
  constructor <;> linarith

theorem encode16s_intCast (n : ℤ) (h1 : -32768 ≤ n) (h2 : n ≤ 32767) :
    encode16s (F32.fin (n : ℚ)) = u16 n := by
  rw [encode16s_eq_spec (F32.fin (n : ℚ)) (round32_intCast n (by rw [abs_lt]; constructor <;> omega))
    (fin_ne_half_ulp_of_int n)]
  simp only [specRound16s, floor_int_add_half]
  rw [if_neg (by omega), if_neg (by omega)]

theorem encode16u_intCast (n : ℤ) (h1 : 0 ≤ n) (h2 : n ≤ 65535) :
    encode16u (F32.fin (n : ℚ)) = n.toNat := by
  rw [encode16u_eq_spec (F32.fin (n : ℚ)) (round32_intCast n (by rw [abs_lt]; constructor <;> omega))
    (fin_ne_half_ulp_of_int n)]
  simp only [specRound16u, floor_int_add_half]
  rw [if_neg (by omega), if_neg (by omega)]

theorem encodeT_exBootEnv : encodeT (F32.fin (45 / 2)) = 0x1680 := by
  have h1 : (F32.fin (45 / 2)).mul 256 = F32.fin ((5760 : ℤ) : ℚ) := by
    have := round32_intCast 5760 (by norm_num)
    simp only [F32.mul]
    norm_num at this ⊢
    exact this
  rw [encodeT, h1, encode16s_intCast 5760 (by norm_num) (by norm_num)]
  decide

theorem encodeRH_exBootEnv : encodeRH (F32.fin 45) = 0x7333 := by
  have h1 : (F32.fin 45).mul 65535 = F32.fin 2949075 := by
    have := round32_intCast 2949075 (by norm_num)
    simp only [F32.mul]
    norm_num at this ⊢
    exact this
  have h2 : round32 (117963 / 4) = F32.fin (117963 / 4) := by
    have := round32_eq_self 117963 (-2) (by norm_num) (by norm_num) (by norm_num)
    norm_num at this ⊢
    exact this
  have h3 : (F32.fin 2949075).div 100 = F32.fin (117963 / 4) := by
    simp only [F32.div]
    norm_num
    exact h2
  have h4 : F32.fin (117963 / 4) ≠ F32.fin (1 / 2 - 1 / 2 ^ 25) := by
    intro h
    have := F32.fin.inj h
    norm_num at this
  have h5 : ⌊(117963 / 4 : ℚ) + 1 / 2⌋ = 29491 := by
    rw [Int.floor_eq_iff]
    constructor <;> norm_num
  rw [encodeRH, h1, h3, encode16u_eq_spec (F32.fin (117963 / 4)) h2 h4]
  simp only [specRound16u, h5]
  decide

theorem encodeRegister_100 : encodeRegister (F32.fin 100) = 100 := by
  have := encode16u_intCast 100 (by norm_num) (by norm_num)
  simpa [encodeRegister] using this

theorem encodeRegister_200 : encodeRegister (F32.fin 200) = 200 := by
  have := encode16u_intCast 200 (by norm_num) (by norm_num)
  simpa [encodeRegister] using this

/-! ## Auxiliary facts: the message -/

theorem length_be16 (w : Nat) : (be16 w).length = 2 := rfl

theorem length_flatMap_be16 (l : List F32) :
    (l.flatMap (fun r => be16 (encodeRegister r))).length = 2 * l.length := by
  induction l with
  | nil => rfl
  | cons a l ih =>
    rw [List.flatMap_cons, List.length_append, ih, List.length_cons]
    simp only [be16, List.length_cons, List.length_nil]
    omega

theorem length_sentRegisters (mb : modbus) (h : mb.nReg ≤ knReg) :
    (sentRegisters mb).length = mb.nReg := by
  unfold sentRegisters
  rw [List.length_take, List.length_ofFn]
  omega

theorem length_specMessage (m : Measurements) (h : m.inContract) :
    (specMessage m).length
      = 1 + 2 * (if m.Vbat.fValid then 1 else 0) + 2 * (if m.Vsys.fValid then 1 else 0)
        + (if m.Boot.fValid then 1 else 0) + 4 * (if m.Env.fValid then 1 else 0)
        + 2 * m.Modbus.v.nReg * (if m.Modbus.fValid then 1 else 0) := by
  obtain ⟨⟨fb, vb⟩, ⟨fs, vs⟩, ⟨fB, vB⟩, ⟨fE, vE⟩, ⟨fM, vM⟩⟩ := m
  cases fM
  · cases fb <;> cases fs <;> cases fB <;> cases fE <;> simp [specMessage, length_be16]
  · have hlen := length_sentRegisters vM (h rfl)
    cases fb <;> cases fs <;> cases fB <;> cases fE <;>
      simp only [specMessage, List.length_append, List.length_cons, List.length_nil,
        length_be16, length_flatMap_be16, hlen, if_true, if_false, Bool.false_eq_true] <;> omega

theorem specFlags_testBit (m : Measurements) :
    (specFlags m).testBit 0 = m.Vbat.fValid ∧ (specFlags m).testBit 1 = m.Vsys.fValid
      ∧ (specFlags m).testBit 2 = m.Boot.fValid ∧ (specFlags m).testBit 3 = m.Env.fValid
      ∧ ∀ i, 4 ≤ i → (specFlags m).testBit i = false := by
  obtain ⟨⟨fb, vb⟩, ⟨fs, vs⟩, ⟨fB, vB⟩, ⟨fE, vE⟩, ⟨fM, vM⟩⟩ := m
  have hlt : ∀ n : Nat, n < 16 → ∀ i, 4 ≤ i → n.testBit i = false := by
    intro n hn i hi
    apply Nat.testBit_lt_two_pow
    calc n < 2 ^ 4 := hn
      _ ≤ 2 ^ i := Nat.pow_le_pow_right (by norm_num) hi
  refine ⟨?_, ?_, ?_, ?_, ?_⟩
  · cases fb <;> cases fs <;> cases fB <;> cases fE <;>
      simp only [specFlags, if_true, if_false, Bool.false_eq_true] <;> decide
  · cases fb <;> cases fs <;> cases fB <;> cases fE <;>
      simp only [specFlags, if_true, if_false, Bool.false_eq_true] <;> decide
  · cases fb <;> cases fs <;> cases fB <;> cases fE <;>
      simp only [specFlags, if_true, if_false, Bool.false_eq_true] <;> decide
  · cases fb <;> cases fs <;> cases fB <;> cases fE <;>
      simp only [specFlags, if_true, if_false, Bool.false_eq_true] <;> decide
  · apply hlt
    cases fb <;> cases fs <;> cases fB <;> cases fE <;>
      simp only [specFlags, if_true, if_false, Bool.false_eq_true] <;> omega

theorem specMessage_exBootEnv : specMessage exBootEnv = [0x0C, 0x07, 0x16, 0x80, 0x73, 0x33] := by
  simp only [specMessage, specFlags, exBootEnv, exEmpty, encodeT_exBootEnv, encodeRH_exBootEnv]
  decide

theorem specMessage_exRegisters : specMessage exRegisters = [0x00, 0x00, 0x64, 0x00, 0xC8] := by
  have h : sentRegisters ⟨2, twoRegisters (F32.fin 100) (F32.fin 200)⟩
      = [F32.fin 100, F32.fin 200] := by
    unfold sentRegisters
    rfl
  simp only [specMessage, specFlags, exRegisters, exEmpty, h]
  simp [encodeRegister_100, encodeRegister_200, be16]

/-! ## The message encoder -/

/-- C1: for every record within the contract (`nReg ≤ knReg` when the register bank is
valid) and every initial buffer content, `encodeMeasurement` leaves in the buffer exactly
the flag byte followed, in this order, by the two big-endian bytes of `encodeV(Vbat)` when
`Vbat` is valid, those of `encodeV(Vsys)` when `Vsys` is valid, the raw byte `Boot` when
`Boot` is valid, the big-endian bytes of `encodeT(t)` then of `encodeRH(rh)` when `Env` is
valid, and the big-endian bytes of `encodeRegister(Register[i])` for `i = 0 .. nReg-1` when
`Modbus` is valid; nothing else is emitted. -/
theorem encodeMeasurement_layout (b : Buffer) (m : Measurements) (h : m.inContract) :
    encodeMeasurement b m
      = some ([specFlags m]
          ++ (if m.Vbat.fValid then be16 (encodeV m.Vbat.v) else [])
          ++ (if m.Vsys.fValid then be16 (encodeV m.Vsys.v) else [])
          ++ (if m.Boot.fValid then [m.Boot.v.val] else [])
          ++ (if m.Env.fValid then be16 (encodeT m.Env.v.t) ++ be16 (encodeRH m.Env.v.rh)
              else [])
          ++ (if m.Modbus.fValid then
                ((List.ofFn m.Modbus.v.Register).take m.Modbus.v.nReg).flatMap
                  (fun r => be16 (encodeRegister r))
              else [])) :=
  encodeMeasurement_eq b m h

/-- C1, at the record of the specification: `Boot = 7`, `Env = (22.5, 45.0)` gives
`0C 07 16 80 73 33`. -/
theorem encodeMeasurement_layout_witness :
    exBootEnv.inContract
      ∧ encodeMeasurement [] exBootEnv = some [0x0C, 0x07, 0x16, 0x80, 0x73, 0x33] :=
  ⟨by decide,
   (encodeMeasurement_layout [] exBootEnv (by decide)).trans
     (congrArg some specMessage_exBootEnv)⟩

/-- C2: byte 0 of the output of `encodeMeasurement` has bit 0 set exactly when `Vbat` is
valid, bit 1 exactly when `Vsys` is valid, bit 2 exactly when `Boot` is valid, bit 3
exactly when `Env` is valid, and every higher bit clear; the byte is the same whatever
the `Modbus` field is replaced with. -/
theorem encodeMeasurement_flag_byte (b : Buffer) (m : Measurements) (h : m.inContract) :
    ∃ f rest, encodeMeasurement b m = some (f :: rest)
      ∧ f.testBit 0 = m.Vbat.fValid ∧ f.testBit 1 = m.Vsys.fValid
      ∧ f.testBit 2 = m.Boot.fValid ∧ f.testBit 3 = m.Env.fValid
      ∧ (∀ i, 4 ≤ i → f.testBit i = false)
      ∧ ∀ mb : val modbus, ({ m with Modbus := mb } : Measurements).inContract →
          ∃ rest2, encodeMeasurement b { m with Modbus := mb } = some (f :: rest2) := by
  obtain ⟨h0, h1, h2, h3, h4⟩ := specFlags_testBit m
  refine ⟨specFlags m, _, encodeMeasurement_eq b m h, h0, h1, h2, h3, h4, ?_⟩
  intro mb hmb
  exact ⟨_, encodeMeasurement_eq b _ hmb⟩

/-- C2, at the record of the specification: registers `[100.0, 200.0]` alone give the
flag byte `0x00`. -/
theorem encodeMeasurement_flag_byte_witness :
    exRegisters.inContract
      ∧ ∃ f rest, encodeMeasurement [] exRegisters = some (f :: rest) ∧ f = 0x00 := by
  refine ⟨by decide, ?_⟩
  obtain ⟨f, rest, hf, -⟩ := encodeMeasurement_flag_byte [] exRegisters (by decide)
  refine ⟨f, rest, hf, ?_⟩
  have h2 := (encodeMeasurement_eq [] exRegisters (by decide)).symm.trans hf
  rw [specMessage_exRegisters] at h2
  exact ((List.cons.inj (Option.some.inj h2)).1).symm

/-- C3: a record in which all five fields are absent, whatever values the absent fields
hold, encodes to the single byte `0x00`. -/
theorem encodeMeasurement_all_absent (b : Buffer) (vb vs : F32) (vB : Fin 256) (vE : env)
    (vM : modbus) :
    encodeMeasurement b
      { Vbat := ⟨false, vb⟩, Vsys := ⟨false, vs⟩, Boot := ⟨false, vB⟩, Env := ⟨false, vE⟩,
        Modbus := ⟨false, vM⟩ } = some [0x00] := rfl

/-- C4: the output of `encodeMeasurement` has length
`1 + 2*[Vbat] + 2*[Vsys] + [Boot] + 4*[Env] + 2*nReg*[Modbus]`. -/
theorem encodeMeasurement_length (b : Buffer) (m : Measurements) (h : m.inContract) :
    ∃ out, encodeMeasurement b m = some out
      ∧ out.length
        = 1 + 2 * (if m.Vbat.fValid then 1 else 0) + 2 * (if m.Vsys.fValid then 1 else 0)
          + (if m.Boot.fValid then 1 else 0) + 4 * (if m.Env.fValid then 1 else 0)
          + 2 * m.Modbus.v.nReg * (if m.Modbus.fValid then 1 else 0) :=
  ⟨_, encodeMeasurement_eq b m h, length_specMessage m h⟩

/-- C4, at the records of the specification: `Vbat` alone gives 3 bytes, `Boot` and `Env`
give 6 bytes, two registers alone give 5 bytes. -/
theorem encodeMeasurement_length_witness :
    (exVbat.inContract ∧ ∃ out, encodeMeasurement [] exVbat = some out ∧ out.length = 3)
      ∧ (exBootEnv.inContract
          ∧ ∃ out, encodeMeasurement [] exBootEnv = some out ∧ out.length = 6)
      ∧ (exRegisters.inContract
          ∧ ∃ out, encodeMeasurement [] exRegisters = some out ∧ out.length = 5) :=
  ⟨⟨by decide, encodeMeasurement_length [] exVbat (by decide)⟩,
   ⟨by decide, encodeMeasurement_length [] exBootEnv (by decide)⟩,
   ⟨by decide, encodeMeasurement_length [] exRegisters (by decide)⟩⟩

/-- C10: for every record within the contract and every two initial buffer contents,
`encodeMeasurement` leaves the same byte sequence in the buffer, and encoding the record
again into the buffer that holds the output leaves it unchanged. -/
theorem encodeMeasurement_deterministic (b1 b2 : Buffer) (m : Measurements)
    (h : m.inContract) :
    ∃ out, encodeMeasurement b1 m = some out ∧ encodeMeasurement b2 m = some out
      ∧ encodeMeasurement out m = some out :=
  ⟨_, encodeMeasurement_eq b1 m h, encodeMeasurement_eq b2 m h, encodeMeasurement_eq _ m h⟩

/-- C10, at the record with `Boot` and `Env` and the buffers `[]` and `[1, 2, 3]`. -/
theorem encodeMeasurement_deterministic_witness :
    exBootEnv.inContract
      ∧ ∃ out, encodeMeasurement [] exBootEnv = some out
          ∧ encodeMeasurement [1, 2, 3] exBootEnv = some out
          ∧ encodeMeasurement out exBootEnv = some out :=
  ⟨by decide, encodeMeasurement_deterministic [] [1, 2, 3] exBootEnv (by decide)⟩

/-! ## The fixed-point codec -/

theorem isFloat_half_ulp : (F32.fin (1 / 2 - 1 / 2 ^ 25)).isFloat := by
  have := round32_eq_self (2 ^ 24 - 1) (-25) (by norm_num) (by norm_num) (by norm_num)
  have h : (((2 ^ 24 - 1 : ℤ)) : ℚ) * 2 ^ (-25 : ℤ) = 1 / 2 - 1 / 2 ^ 25 := by norm_num
  rw [h] at this
  exact this

/-- The float sum `(0.5 - 2 ^ (-25)) + 0.5f` is a tie between `1 - 2 ^ (-24)` and `1`
and rounds to `1`. -/
theorem add_half_ulp : (F32.fin (1 / 2 - 1 / 2 ^ 25)).add (1 / 2) = F32.fin 1 := by
  have hexp : ulpExp (1 / 2 - 1 / 2 ^ 25 + 1 / 2) = -24 :=
    ulpExp_eq _ (-24) (by norm_num) (by norm_num [abs_of_pos]) (by norm_num [abs_of_pos])
  have hfl : ⌊(33554431 / 2 : ℚ)⌋ = 16777215 := by
    rw [Int.floor_eq_iff]
    constructor <;> norm_num
  have hne : roundNE (33554431 / 2) = 16777216 := by
    unfold roundNE
    rw [hfl]
    norm_num
  have hfin : roundFin (1 / 2 - 1 / 2 ^ 25 + 1 / 2) = 1 := by
    unfold roundFin
    rw [hexp]
    have h1 : ((1 : ℚ) / 2 - 1 / 2 ^ 25 + 1 / 2) / 2 ^ (-24 : ℤ) = 33554431 / 2 := by norm_num
    rw [h1, hne]
    norm_num
  simp only [F32.add]
  unfold round32
  rw [hfin]
  norm_num

theorem encode16s_half_ulp : encode16s (F32.fin (1 / 2 - 1 / 2 ^ 25)) = 1 := by
  rw [encode16s_of_add_fin _ 1 add_half_ulp]
  have : ⌊(1 : ℚ)⌋ = 1 := Int.floor_one
  rw [this]
  decide

theorem encode16u_half_ulp : encode16u (F32.fin (1 / 2 - 1 / 2 ^ 25)) = 1 := by
  rw [encode16u_of_add_fin _ 1 add_half_ulp]
  have : ⌊(1 : ℚ)⌋ = 1 := Int.floor_one
  rw [this]
  decide

theorem floor_half_ulp : ⌊(1 / 2 - 1 / 2 ^ 25 : ℚ) + 1 / 2⌋ = 0 := by
  rw [Int.floor_eq_iff]
  constructor <;> norm_num

/-- C5 as stated fails at the binary32 value `0.5 - 2 ^ (-25)` (`0.49999997`): over the
reals `floor(x + 0.5) = 0`, so the claim gives the word `0`, but the float sum
`x + 0.5f` rounds to `1.0f` and `encode16s` returns `1`. -/
theorem encode16s_real_floor_counterexample :
    (F32.fin (1 / 2 - 1 / 2 ^ 25)).isFloat
      ∧ ⌊(1 / 2 - 1 / 2 ^ 25 : ℚ) + 1 / 2⌋ = 0
      ∧ specRound16s (F32.fin (1 / 2 - 1 / 2 ^ 25)) = 0
      ∧ encode16s (F32.fin (1 / 2 - 1 / 2 ^ 25)) = 1 := by
  refine ⟨isFloat_half_ulp, floor_half_ulp, ?_, encode16s_half_ulp⟩
  simp only [specRound16s, floor_half_ulp]
  decide

/-- C5, amended: for every binary32 input `x` other than `0.5 - 2 ^ (-25)`, with
`n = floor(x + 0.5)` over the reals, `encode16s x` is `0x7FFF` if `n > 32767`, `0x8000`
if `n < -32768` and `n mod 2 ^ 16` otherwise (an infinite `x` saturates); at
`x = 0.5 - 2 ^ (-25)` the result is `1`; and for every integer `k` in `[-32768, 32766]`,
`k + 0.5` is a binary32 value that encodes `k + 1`. -/
theorem encode16s_round_half_up (x : F32) (hx : x.isFloat)
    (hne : x ≠ F32.fin (1 / 2 - 1 / 2 ^ 25)) (k : ℤ) (hk1 : -32768 ≤ k) (hk2 : k ≤ 32766) :
    encode16s x = specRound16s x
      ∧ encode16s (F32.fin (1 / 2 - 1 / 2 ^ 25)) = 1
      ∧ (F32.fin ((k : ℚ) + 1 / 2)).isFloat
      ∧ encode16s (F32.fin ((k : ℚ) + 1 / 2)) = u16 (k + 1) := by
  have hfl : round32 ((k : ℚ) + 1 / 2) = F32.fin ((k : ℚ) + 1 / 2) := by
    have := round32_half (2 * k + 1) (by rw [abs_lt]; constructor <;> omega)
    have h : (((2 * k + 1 : ℤ)) : ℚ) / 2 = (k : ℚ) + 1 / 2 := by push_cast; ring
    rw [h] at this
    exact this
  refine ⟨encode16s_eq_spec x hx hne, encode16s_half_ulp, hfl, ?_⟩
  have hadd : (F32.fin ((k : ℚ) + 1 / 2)).add (1 / 2) = F32.fin (((k + 1 : ℤ)) : ℚ) := by
    have := round32_intCast (k + 1) (by rw [abs_lt]; constructor <;> omega)
    simp only [F32.add]
    have h : (k : ℚ) + 1 / 2 + 1 / 2 = (((k + 1 : ℤ)) : ℚ) := by push_cast; ring
    rw [h]
    exact this
  rw [encode16s_of_add_fin _ _ hadd, Int.floor_intCast, if_neg (by omega), if_neg (by omega)]

/-- C5, amended, at `x = 2.5` and `k = 2`: both encode `3`. -/
theorem encode16s_round_half_up_witness :
    (F32.fin (5 / 2)).isFloat ∧ F32.fin (5 / 2) ≠ F32.fin (1 / 2 - 1 / 2 ^ 25)
      ∧ encode16s (F32.fin (5 / 2)) = specRound16s (F32.fin (5 / 2))
      ∧ encode16s (F32.fin (((2 : ℤ) : ℚ) + 1 / 2)) = u16 (2 + 1) := by
  have h1 : (F32.fin (5 / 2)).isFloat := by
    have := round32_half 5 (by norm_num)
    norm_num at this
    exact this
  have h2 : F32.fin (5 / 2) ≠ F32.fin (1 / 2 - 1 / 2 ^ 25) := by
    intro h
    have := F32.fin.inj h
    norm_num at this
  have h3 := encode16s_round_half_up (F32.fin (5 / 2)) h1 h2 2 (by norm_num) (by norm_num)
  exact ⟨h1, h2, h3.1, h3.2.2.2⟩

/-- C6 as stated fails at the binary32 value `0.5 - 2 ^ (-25)`: `floor(x + 0.5)` clamped
to `[0, 65535]` is `0`, but `encode16u` returns `1`. -/
theorem encode16u_real_floor_counterexample :
    (F32.fin (1 / 2 - 1 / 2 ^ 25)).isFloat
      ∧ specRound16u (F32.fin (1 / 2 - 1 / 2 ^ 25)) = 0
      ∧ encode16u (F32.fin (1 / 2 - 1 / 2 ^ 25)) = 1 := by
  refine ⟨isFloat_half_ulp, ?_, encode16u_half_ulp⟩
  simp only [specRound16u, floor_half_ulp]
  decide

/-- C6, amended: for every binary32 input `x` other than `0.5 - 2 ^ (-25)`, `encode16u x`
is `floor(x + 0.5)` over the reals clamped to `[0, 65535]` (`0` when the floor is
negative, `0xFFFF` when it exceeds `65535`); at `x = 0.5 - 2 ^ (-25)` the result is `1`. -/
theorem encode16u_clamped_round (x : F32) (hx : x.isFloat)
    (hne : x ≠ F32.fin (1 / 2 - 1 / 2 ^ 25)) :
    encode16u x = specRound16u x ∧ encode16u (F32.fin (1 / 2 - 1 / 2 ^ 25)) = 1 :=
  ⟨encode16u_eq_spec x hx hne, encode16u_half_ulp⟩

/-- C6, amended, at `x = 2.5`, which encodes `3`. -/
theorem encode16u_clamped_round_witness :
    (F32.fin (5 / 2)).isFloat ∧ F32.fin (5 / 2) ≠ F32.fin (1 / 2 - 1 / 2 ^ 25)
      ∧ encode16u (F32.fin (5 / 2)) = 3 := by
  have h1 : (F32.fin (5 / 2)).isFloat := by
    have := round32_half 5 (by norm_num)
    norm_num at this
    exact this
  have h2 : F32.fin (5 / 2) ≠ F32.fin (1 / 2 - 1 / 2 ^ 25) := by
    intro h
    have := F32.fin.inj h
    norm_num at this
  refine ⟨h1, h2, ?_⟩
  rw [(encode16u_clamped_round (F32.fin (5 / 2)) h1 h2).1]
  have hfl : ⌊(5 / 2 : ℚ) + 1 / 2⌋ = 3 := by
    rw [Int.floor_eq_iff]
    constructor <;> norm_num
  simp only [specRound16u, hfl]
  decide

/-- Scaling a binary32 value by a power of two is exact while the exponent stays in
range. -/
theorem round32_mul_pow (q : ℚ) (hq : roundFin q = q) (j : ℕ) (hE : ulpExp q + j ≤ 104) :
    round32 (q * 2 ^ j) = F32.fin (q * 2 ^ j) := by
  obtain ⟨M, hM, hqM⟩ := float_decomp q hq
  have := round32_eq_self M (ulpExp q + j) hM (by have := ulpExp_ge q; omega) hE
  rw [zpow_add₀ (by norm_num : (2 : ℚ) ≠ 0), zpow_natCast, ← mul_assoc, ← hqM] at this
  exact this

theorem encodeV_of_small (q : ℚ) (hq : (F32.fin q).isFloat) (h1 : -8 < q) (h2 : q < 8) :
    (F32.fin q).mul 4096 = F32.fin (q * 4096) := by
  have hE : ulpExp q ≤ -21 := by
    apply ulpExp_le_of_abs_lt q (-21) (by norm_num)
    have : (2 : ℚ) ^ ((-21 : ℤ) + 24) = 8 := by norm_num
    rw [this, abs_lt]
    exact ⟨h1, h2⟩
  have := round32_mul_pow q (roundFin_of_round32 hq) 12 (by omega)
  have h4096 : (2 : ℚ) ^ 12 = 4096 := by norm_num
  rw [h4096] at this
  exact this

/-- C7 as stated fails at the binary32 value `v = 7.99993896484375`: `|v| < 8`, but
`v * 4096 = 32767.75` saturates to `0x7FFF`, which decodes to `32767 / 4096`, at distance
`3 / 16384` from `v`.  It also fails at `v = 2 ^ (-13) - 2 ^ (-37)`, where the rounding of
the float sum makes the error `1 / 8192 + 2 ^ (-37)`. -/
theorem encodeV_error_counterexample :
    ((F32.fin (131071 / 16384)).isFloat ∧ |(131071 / 16384 : ℚ)| < 8
        ∧ encodeV (F32.fin (131071 / 16384)) = 0x7FFF
        ∧ 1 / 8192 < |(s16 (encodeV (F32.fin (131071 / 16384))) : ℚ) / 4096 - 131071 / 16384|)
      ∧ ((F32.fin (1 / 2 ^ 13 - 1 / 2 ^ 37)).isFloat ∧ |(1 / 2 ^ 13 - 1 / 2 ^ 37 : ℚ)| < 8
        ∧ encodeV (F32.fin (1 / 2 ^ 13 - 1 / 2 ^ 37)) = 1
        ∧ 1 / 8192
            < |(s16 (encodeV (F32.fin (1 / 2 ^ 13 - 1 / 2 ^ 37))) : ℚ) / 4096
                - (1 / 2 ^ 13 - 1 / 2 ^ 37)|) := by
  have hf1 : (F32.fin (131071 / 16384)).isFloat := by
    have := round32_eq_self 131071 (-14) (by norm_num) (by norm_num) (by norm_num)
    norm_num at this
    exact this
  have hf2 : (F32.fin (1 / 2 ^ 13 - 1 / 2 ^ 37)).isFloat := by
    have := round32_eq_self (2 ^ 24 - 1) (-37) (by norm_num) (by norm_num) (by norm_num)
    have h : (((2 ^ 24 - 1 : ℤ)) : ℚ) * 2 ^ (-37 : ℤ) = 1 / 2 ^ 13 - 1 / 2 ^ 37 := by norm_num
    rw [h] at this
    exact this
  have he1 : encodeV (F32.fin (131071 / 16384)) = 0x7FFF := by
    rw [encodeV, encodeV_of_small _ hf1 (by norm_num) (by norm_num)]
    apply encode16s_eq_max
    show (65535 / 2 : ℚ) ≤ 131071 / 16384 * 4096
    norm_num
  have he2 : encodeV (F32.fin (1 / 2 ^ 13 - 1 / 2 ^ 37)) = 1 := by
    rw [encodeV, encodeV_of_small _ hf2 (by norm_num) (by norm_num)]
    have h : ((1 : ℚ) / 2 ^ 13 - 1 / 2 ^ 37) * 4096 = 1 / 2 - 1 / 2 ^ 25 := by norm_num
    rw [h]
    exact encode16s_half_ulp
  refine ⟨⟨hf1, by norm_num [abs_of_pos], he1, ?_⟩, ⟨hf2, by norm_num [abs_of_pos], he2, ?_⟩⟩
  · rw [he1]
    have : s16 0x7FFF = 32767 := by decide
    rw [this]
    norm_num [abs_of_pos]
  · rw [he2]
    have : s16 1 = 1 := by decide
    rw [this]
    norm_num [abs_of_pos]

/-- C7, amended: for every binary32 voltage `v` with `-8 < v` and `v * 4096 < 32767.5`
other than `v = 2 ^ (-13) - 2 ^ (-37)`, the word `encodeV v` read as a 16-bit
two's-complement integer and divided by 4096 is within `1 / 8192` of `v`. -/
theorem encodeV_error_bound (v : ℚ) (hv : (F32.fin v).isFloat) (h1 : -8 < v)
    (h2 : v * 4096 < 65535 / 2) (hne : v ≠ 1 / 2 ^ 13 - 1 / 2 ^ 37) :
    |(s16 (encodeV (F32.fin v)) : ℚ) / 4096 - v| ≤ 1 / 8192 := by
  have hmul := encodeV_of_small v hv h1 (by linarith)
  have hy : (F32.fin (v * 4096)).isFloat := by
    have hE : ulpExp v ≤ -21 := by
      apply ulpExp_le_of_abs_lt v (-21) (by norm_num)
      have : (2 : ℚ) ^ ((-21 : ℤ) + 24) = 8 := by norm_num
      rw [this, abs_lt]
      exact ⟨h1, by linarith⟩
    have := round32_mul_pow v (roundFin_of_round32 hv) 12 (by omega)
    have h4096 : (2 : ℚ) ^ 12 = 4096 := by norm_num
    rw [h4096] at this
    exact this
  have hyne : F32.fin (v * 4096) ≠ F32.fin (1 / 2 - 1 / 2 ^ 25) := by
    intro h
    apply hne
    have := F32.fin.inj h
    linarith
  have hlo : (-32768 : ℤ) ≤ ⌊v * 4096 + 1 / 2⌋ := Int.le_floor.mpr (by push_cast; linarith)
  have hhi : ⌊v * 4096 + 1 / 2⌋ < (32768 : ℤ) := Int.floor_lt.mpr (by push_cast; linarith)
  rw [encodeV, hmul, encode16s_eq_spec _ hy hyne]
  simp only [specRound16s]
  rw [if_neg (by omega), if_neg (by omega), s16_u16 _ hlo (by omega)]
  have hf1 := Int.floor_le (v * 4096 + 1 / 2)
  have hf2 := Int.lt_floor_add_one (v * 4096 + 1 / 2)
  rw [abs_le]
  constructor <;> linarith

/-- C7, amended, at the binary32 value nearest to 3.3. -/
theorem encodeV_error_bound_witness :
    (F32.fin (13841203 / 4194304)).isFloat ∧ (-8 : ℚ) < 13841203 / 4194304
      ∧ (13841203 / 4194304 : ℚ) * 4096 < 65535 / 2
      ∧ (13841203 / 4194304 : ℚ) ≠ 1 / 2 ^ 13 - 1 / 2 ^ 37
      ∧ |(s16 (encodeV (F32.fin (13841203 / 4194304))) : ℚ) / 4096 - 13841203 / 4194304|
          ≤ 1 / 8192 := by
  have hf : (F32.fin (13841203 / 4194304)).isFloat := by
    have := round32_eq_self 13841203 (-22) (by norm_num) (by norm_num) (by norm_num)
    norm_num at this
    exact this
  exact ⟨hf, by norm_num, by norm_num, by norm_num,
    encodeV_error_bound _ hf (by norm_num) (by norm_num) (by norm_num)⟩

/-- C8: `encodeV` saturates instead of wrapping: `encodeV v = 0x7FFF` for every `v` with
`v * 4096 ≥ 32767.5`, in particular for every `v ≥ 8` and for `+∞`, and
`encodeV v = 0x8000` for every `v ≤ -8` and for `-∞`. -/
theorem encodeV_saturates (v u w : ℚ) (hv : 65535 / 2 ≤ v * 4096) (hu : 8 ≤ u)
    (hw : w ≤ -8) :
    encodeV (F32.fin v) = 0x7FFF ∧ encodeV (F32.fin u) = 0x7FFF ∧ encodeV F32.pinf = 0x7FFF
      ∧ encodeV (F32.fin w) = 0x8000 ∧ encodeV F32.ninf = 0x8000 := by
  have hhalf : round32 (65535 / 2) = F32.fin (65535 / 2) := by
    have := round32_half 65535 (by norm_num)
    norm_num at this
    exact this
  have hmin : round32 (-32768) = F32.fin (-32768) := by
    have := round32_intCast (-32768) (by norm_num)
    norm_num at this
    exact this
  have hmax : ∀ q : ℚ, 65535 / 2 ≤ q * 4096 → encodeV (F32.fin q) = 0x7FFF := by
    intro q hq
    apply encode16s_eq_max
    have := round32_mono hq
    rw [hhalf] at this
    exact this
  refine ⟨hmax v hv, hmax u (by linarith), ?_, ?_, ?_⟩
  · exact encode16s_of_add_pinf _ (by simp [F32.mul, F32.add])
  · apply encode16s_eq_min
    have := round32_mono (show w * 4096 ≤ -32768 by linarith)
    rw [hmin] at this
    exact this
  · exact encode16s_of_add_ninf _ (by simp [F32.mul, F32.add])

/-- C8, at `v = 7.99993896484375`, `u = 8` and `w = -8`. -/
theorem encodeV_saturates_witness :
    (65535 / 2 : ℚ) ≤ 131071 / 16384 * 4096 ∧ (8 : ℚ) ≤ 8 ∧ (-8 : ℚ) ≤ -8
      ∧ encodeV (F32.fin (131071 / 16384)) = 0x7FFF ∧ encodeV (F32.fin 8) = 0x7FFF
      ∧ encodeV (F32.fin (-8)) = 0x8000 := by
  have h := encodeV_saturates (131071 / 16384) 8 (-8) (by norm_num) (by norm_num) (by norm_num)
  exact ⟨by norm_num, by norm_num, by norm_num, h.1, h.2.1, h.2.2.2.1⟩

theorem sentRegisters_congr (mb1 mb2 : modbus) (hn : mb1.nReg = mb2.nReg)
    (hr : ∀ (i : Nat) (h : i < knReg), i < mb1.nReg → mb1.Register ⟨i, h⟩ = mb2.Register ⟨i, h⟩) :
    sentRegisters mb1 = sentRegisters mb2 := by
  unfold sentRegisters
  apply List.ext_getElem
  · rw [List.length_take, List.length_take, List.length_ofFn, List.length_ofFn, hn]
  · intro i h1 h2
    rw [List.length_take, List.length_ofFn] at h1
    rw [List.getElem_take, List.getElem_take, List.getElem_ofFn, List.getElem_ofFn]
    exact hr i (by omega) (by omega)

/-- C11: two records of the data model with the same validity flags, the same value in
every valid field and, when `Modbus` is valid, the same `nReg` and the same `Register[i]`
for all `i < nReg`, are encoded to the same bytes: the values stored in absent fields and
the register slots from `nReg` on do not influence the output. -/
theorem encodeMeasurement_omits_unsampled (b : Buffer) (m1 m2 : Measurements)
    (hc : m1.inContract)
    (hVbat : m1.Vbat.fValid = m2.Vbat.fValid ∧ (m1.Vbat.fValid = true → m1.Vbat.v = m2.Vbat.v))
    (hVsys : m1.Vsys.fValid = m2.Vsys.fValid ∧ (m1.Vsys.fValid = true → m1.Vsys.v = m2.Vsys.v))
    (hBoot : m1.Boot.fValid = m2.Boot.fValid ∧ (m1.Boot.fValid = true → m1.Boot.v = m2.Boot.v))
    (hEnv : m1.Env.fValid = m2.Env.fValid ∧ (m1.Env.fValid = true → m1.Env.v = m2.Env.v))
    (hModbus : m1.Modbus.fValid = m2.Modbus.fValid
      ∧ (m1.Modbus.fValid = true → m1.Modbus.v.nReg = m2.Modbus.v.nReg
          ∧ ∀ (i : Nat) (h : i < knReg), i < m1.Modbus.v.nReg →
              m1.Modbus.v.Register ⟨i, h⟩ = m2.Modbus.v.Register ⟨i, h⟩)) :
    ∃ out, encodeMeasurement b m1 = some out ∧ encodeMeasurement b m2 = some out := by
  have hc2 : m2.inContract := by
    intro hv
    have hv1 : m1.Modbus.fValid = true := by rw [hModbus.1]; exact hv
    rw [← (hModbus.2 hv1).1]
    exact hc hv1
  refine ⟨specMessage m1, encodeMeasurement_eq b m1 hc, ?_⟩
  rw [encodeMeasurement_eq b m2 hc2]
  congr 1
  obtain ⟨⟨fb, vb⟩, ⟨fs, vs⟩, ⟨fB, vB⟩, ⟨fE, vE⟩, ⟨fM, vM⟩⟩ := m1
  obtain ⟨⟨fb2, vb2⟩, ⟨fs2, vs2⟩, ⟨fB2, vB2⟩, ⟨fE2, vE2⟩, ⟨fM2, vM2⟩⟩ := m2
  simp only at hVbat hVsys hBoot hEnv hModbus
  obtain ⟨rfl, hvb⟩ := hVbat
  obtain ⟨rfl, hvs⟩ := hVsys
  obtain ⟨rfl, hvB⟩ := hBoot
  obtain ⟨rfl, hvE⟩ := hEnv
  obtain ⟨rfl, hvM⟩ := hModbus
  have e1 : (if fb = true then be16 (encodeV vb) else []) =
      (if fb = true then be16 (encodeV vb2) else []) := by
    cases fb
    · rfl
    · rw [hvb rfl]
  have e2 : (if fs = true then be16 (encodeV vs) else []) =
      (if fs = true then be16 (encodeV vs2) else []) := by
    cases fs
    · rfl
    · rw [hvs rfl]
  have e3 : (if fB = true then [vB.val] else []) = (if fB = true then [vB2.val] else []) := by
    cases fB
    · rfl
    · rw [hvB rfl]
  have e4 : (if fE = true then be16 (encodeT vE.t) ++ be16 (encodeRH vE.rh) else []) =
      (if fE = true then be16 (encodeT vE2.t) ++ be16 (encodeRH vE2.rh) else []) := by
    cases fE
    · rfl
    · rw [hvE rfl]
  have e5 : (if fM = true then (sentRegisters vM).flatMap (fun r => be16 (encodeRegister r))
        else []) =
      (if fM = true then (sentRegisters vM2).flatMap (fun r => be16 (encodeRegister r))
        else []) := by
    cases fM
    · rfl
    · rw [sentRegisters_congr vM vM2 (hvM rfl).1 (hvM rfl).2]
  simp only [specMessage, specFlags]
  rw [e1, e2, e3, e4, e5]

/-- C11, at the record with the registers `[100.0, 200.0]` and a record that differs from
it in every absent field and in the register slots from index 2 on. -/
theorem encodeMeasurement_omits_unsampled_witness :
    ∃ out, encodeMeasurement [] exRegisters = some out
      ∧ encodeMeasurement [] exRegistersOther = some out :=
  encodeMeasurement_omits_unsampled [] exRegisters exRegistersOther (by decide)
    ⟨rfl, fun h => absurd h (by decide)⟩ ⟨rfl, fun h => absurd h (by decide)⟩
    ⟨rfl, fun h => absurd h (by decide)⟩ ⟨rfl, fun h => absurd h (by decide)⟩
    ⟨rfl, fun _ => ⟨rfl, fun i h hi => by
      have hi2 : i < 2 := hi
      interval_cases i <;> rfl⟩⟩

/-- C12: `push_back_be` leaves the bytes of the buffer unchanged and appends exactly the
two bytes `v >> 8` and `v & 0xFF` of a 16-bit `v`, with `256 * hi + lo = v`;
`push_back_be4` leaves the bytes of the buffer unchanged and appends exactly four bytes
`b3, b2, b1, b0` of a 32-bit `w`, most significant first, with
`2 ^ 24 * b3 + 2 ^ 16 * b2 + 2 ^ 8 * b1 + b0 = w`. -/
theorem push_back_be_appends (buf : Buffer) (v w : Nat) (hv : v < 2 ^ 16) (hw : w < 2 ^ 32) :
    (buf.push_back_be v = buf ++ [v >>> 8, v &&& 0xFF]
        ∧ v >>> 8 < 256 ∧ v &&& 0xFF < 256 ∧ 256 * (v >>> 8) + (v &&& 0xFF) = v)
      ∧ ∃ b3 b2 b1 b0, buf.push_back_be4 w = buf ++ [b3, b2, b1, b0]
          ∧ b3 < 256 ∧ b2 < 256 ∧ b1 < 256 ∧ b0 < 256
          ∧ 2 ^ 24 * b3 + 2 ^ 16 * b2 + 2 ^ 8 * b1 + b0 = w := by
  have h1 : v >>> 8 = v / 256 := Nat.shiftRight_eq_div_pow v 8
  have h2 : v &&& 0xFF = v % 256 := Nat.and_pow_two_sub_one_eq_mod v 8
  have h3 : w >>> 24 = w / 16777216 := Nat.shiftRight_eq_div_pow w 24
  have h4 : w >>> 16 = w / 65536 := Nat.shiftRight_eq_div_pow w 16
  have h5 : w >>> 8 = w / 256 := Nat.shiftRight_eq_div_pow w 8
  have h6 : w &&& 0xFF = w % 256 := Nat.and_pow_two_sub_one_eq_mod w 8
  refine ⟨⟨?_, ?_, ?_, ?_⟩, ?_⟩
  · unfold Buffer.push_back_be Buffer.push_back u8
    rw [h1, h2]
    have h7 : v / 256 % 2 ^ 8 = v / 256 := by omega
    have h8 : v % 256 % 2 ^ 8 = v % 256 := by omega
    rw [h7, h8]
    simp
  · omega
  · omega
  · omega
  · refine ⟨u8 (w >>> 24), u8 (w >>> 16), u8 (w >>> 8), u8 (w &&& 0xFF), ?_, ?_, ?_, ?_, ?_, ?_⟩
    · unfold Buffer.push_back_be4 Buffer.push_back
      simp
    · unfold u8; omega
    · unfold u8; omega
    · unfold u8; omega
    · unfold u8; omega
    · unfold u8
      rw [h3, h4, h5, h6]
      omega

/-- C12, at the buffer `[1, 2]`, the word `0x1680` and the double word `0x12345678`. -/
theorem push_back_be_appends_witness :
    Buffer.push_back_be [1, 2] 0x1680 = [1, 2, 0x16, 0x80]
      ∧ Buffer.push_back_be4 [1, 2] 0x12345678 = [1, 2, 0x12, 0x34, 0x56, 0x78] := by
  have h := push_back_be_appends [1, 2] 0x1680 0x12345678 (by norm_num) (by norm_num)
  refine ⟨h.1.1.trans (by decide), by decide⟩

theorem s16_max : s16 0x7FFF = 32767 := by decide

theorem s16_min : s16 0x8000 = -32768 := by decide

theorem s16_bounds (w : Nat) (h : w < 2 ^ 16) : -32768 ≤ s16 w ∧ s16 w ≤ 32767 := by
  unfold s16
  split_ifs <;> omega

theorem encode16u_mono_of_add (x y : F32) (h : (x.add (1 / 2)).le (y.add (1 / 2))) :
    encode16u x ≤ encode16u y := by
  have hy := encode16u_lt y
  cases hx : x.add (1 / 2) with
  | ninf => rw [encode16u_of_add_ninf x hx]; exact Nat.zero_le _
  | pinf =>
    rw [hx] at h
    cases hy2 : y.add (1 / 2) with
    | pinf => rw [encode16u_of_add_pinf x hx, encode16u_of_add_pinf y hy2]
    | ninf => rw [hy2] at h; simp [F32.le] at h
    | fin z => rw [hy2] at h; simp [F32.le] at h
  | fin z1 =>
    rw [hx] at h
    cases hy2 : y.add (1 / 2) with
    | pinf =>
      have := encode16u_lt x
      rw [encode16u_of_add_pinf y hy2]
      omega
    | ninf => rw [hy2] at h; simp [F32.le] at h
    | fin z2 =>
      rw [hy2] at h
      have hz : z1 ≤ z2 := h
      have hfl : ⌊z1⌋ ≤ ⌊z2⌋ := Int.floor_mono hz
      rw [encode16u_of_add_fin x z1 hx, encode16u_of_add_fin y z2 hy2]
      unfold u16
      split_ifs <;> omega

theorem encode16s_mono_of_add (x y : F32) (h : (x.add (1 / 2)).le (y.add (1 / 2))) :
    s16 (encode16s x) ≤ s16 (encode16s y) := by
  have hxb := s16_bounds _ (encode16s_lt x)
  have hyb := s16_bounds _ (encode16s_lt y)
  cases hx : x.add (1 / 2) with
  | ninf =>
    rw [encode16s_of_add_ninf x hx, s16_min]
    exact hyb.1
  | pinf =>
    rw [hx] at h
    cases hy2 : y.add (1 / 2) with
    | pinf => rw [encode16s_of_add_pinf x hx, encode16s_of_add_pinf y hy2]
    | ninf => rw [hy2] at h; simp [F32.le] at h
    | fin z => rw [hy2] at h; simp [F32.le] at h
  | fin z1 =>
    rw [hx] at h
    cases hy2 : y.add (1 / 2) with
    | pinf =>
      rw [encode16s_of_add_pinf y hy2, s16_max]
      exact hxb.2
    | ninf => rw [hy2] at h; simp [F32.le] at h
    | fin z2 =>
      rw [hy2] at h
      have hz : z1 ≤ z2 := h
      have hfl : ⌊z1⌋ ≤ ⌊z2⌋ := Int.floor_mono hz
      rw [encode16s_of_add_fin x z1 hx, encode16s_of_add_fin y z2 hy2]
      by_cases h1 : 32767 < ⌊z1⌋
      · rw [if_pos h1, if_pos (by omega)]
      · rw [if_neg h1]
        by_cases h2 : ⌊z1⌋ < -32768
        · rw [if_pos h2, s16_min]
          have := s16_bounds (if 32767 < ⌊z2⌋ then 0x7FFF else if ⌊z2⌋ < -32768 then 0x8000
            else u16 ⌊z2⌋) (by split_ifs <;> first | exact u16_lt _ | norm_num)
          exact this.1
        · rw [if_neg h2, s16_u16 _ (by omega) (by omega)]
          by_cases h3 : 32767 < ⌊z2⌋
          · rw [if_pos h3, s16_max]; omega
          · rw [if_neg h3, if_neg (by omega), s16_u16 _ (by omega) (by omega)]
            exact hfl

/-- C15: quantisation is monotone: for `x ≤ y`, `encode16u x ≤ encode16u y` as unsigned
integers and `encode16s x ≤ encode16s y` as 16-bit two's-complement integers; hence
`encodeV` and `encodeT` (read as two's complement), `encodeRH` and `encodeRegister` are
monotone non-decreasing. -/
theorem quantisation_monotone (x y : F32) (h : x.le y) :
    encode16u x ≤ encode16u y ∧ s16 (encode16s x) ≤ s16 (encode16s y)
      ∧ s16 (encodeV x) ≤ s16 (encodeV y) ∧ s16 (encodeT x) ≤ s16 (encodeT y)
      ∧ encodeRH x ≤ encodeRH y ∧ encodeRegister x ≤ encodeRegister y :=
  ⟨encode16u_mono_of_add x y (F32.add_mono _ h),
   encode16s_mono_of_add x y (F32.add_mono _ h),
   encode16s_mono_of_add _ _ (F32.add_mono _ (F32.mul_mono (by norm_num) h)),
   encode16s_mono_of_add _ _ (F32.add_mono _ (F32.mul_mono (by norm_num) h)),
   encode16u_mono_of_add _ _
     (F32.add_mono _ (F32.div_mono (by norm_num) (F32.mul_mono (by norm_num) h))),
   encode16u_mono_of_add x y (F32.add_mono _ h)⟩

/-- C15, at `x = -9` and `y = 3`: a voltage below the range stays below one inside it. -/
theorem quantisation_monotone_witness :
    (F32.fin (-9)).le (F32.fin 3) ∧ s16 (encodeV (F32.fin (-9))) ≤ s16 (encodeV (F32.fin 3))
      ∧ encodeRegister (F32.fin (-9)) ≤ encodeRegister (F32.fin 3) := by
  have hle : (F32.fin (-9)).le (F32.fin 3) := by
    show (-9 : ℚ) ≤ 3
    norm_num
  have h := quantisation_monotone (F32.fin (-9)) (F32.fin 3) hle
  exact ⟨hle, h.2.2.1, h.2.2.2.2.2⟩

/-- C16: the encoders are exact on the values the wire format represents: for every
integer `k` in `[0, 65535]`, `encodeRegister k = k`, and for every integer `j` in
`[-32768, 32767]`, `encodeV (j / 4096)` and `encodeT (j / 256)` are both the 16-bit
two's-complement representation of `j`. -/
theorem encoders_exact (k j : ℤ) (hk0 : 0 ≤ k) (hk1 : k ≤ 65535) (hj0 : -32768 ≤ j)
    (hj1 : j ≤ 32767) :
    (encodeRegister (F32.fin (k : ℚ)) : ℤ) = k
      ∧ encodeV (F32.fin ((j : ℚ) / 4096)) = u16 j
      ∧ encodeT (F32.fin ((j : ℚ) / 256)) = u16 j
      ∧ s16 (u16 j) = j := by
  have hj : round32 (j : ℚ) = F32.fin (j : ℚ) :=
    round32_intCast j (by rw [abs_lt]; constructor <;> omega)
  refine ⟨?_, ?_, ?_, s16_u16 j hj0 hj1⟩
  · rw [encodeRegister, encode16u_intCast k hk0 hk1]
    omega
  · have h1 : (F32.fin ((j : ℚ) / 4096)).mul 4096 = F32.fin (j : ℚ) := by
      simp only [F32.mul]
      rw [div_mul_cancel₀ _ (by norm_num : (4096 : ℚ) ≠ 0)]
      exact hj
    rw [encodeV, h1, encode16s_intCast j hj0 hj1]
  · have h1 : (F32.fin ((j : ℚ) / 256)).mul 256 = F32.fin (j : ℚ) := by
      simp only [F32.mul]
      rw [div_mul_cancel₀ _ (by norm_num : (256 : ℚ) ≠ 0)]
      exact hj
    rw [encodeT, h1, encode16s_intCast j hj0 hj1]

/-- C16, at `k = 65535` and `j = -32768`. -/
theorem encoders_exact_witness :
    (encodeRegister (F32.fin ((65535 : ℤ) : ℚ)) : ℤ) = 65535
      ∧ encodeV (F32.fin (((-32768 : ℤ) : ℚ) / 4096)) = 0x8000
      ∧ encodeT (F32.fin (((-32768 : ℤ) : ℚ) / 256)) = 0x8000 := by
  have h := encoders_exact 65535 (-32768) (by norm_num) (by norm_num) (by norm_num)
    (by norm_num)
  have hu : u16 (-32768) = 0x8000 := by decide
  exact ⟨h.1, h.2.1.trans hu, h.2.2.1.trans hu⟩

/-! ## Size and decodability of the message -/

/-- C17: `knReg` is 113, and for every record with at most 113 registers the output of
`encodeMeasurement` is at most 236 bytes long, so it fits a payload of 240 bytes; the
length is 236 when all five fields are valid and `nReg = 113`. -/
theorem encodeMeasurement_fits_payload (b : Buffer) (m : Measurements)
    (h : m.Modbus.v.nReg ≤ knReg) :
    knReg = 113 ∧ knReg = (240 - 13) / 2
      ∧ ∃ out, encodeMeasurement b m = some out ∧ out.length ≤ 236 ∧ out.length ≤ 240
          ∧ (m.Vbat.fValid = true → m.Vsys.fValid = true → m.Boot.fValid = true →
              m.Env.fValid = true → m.Modbus.fValid = true → m.Modbus.v.nReg = 113 →
              out.length = 236) := by
  have hc : m.inContract := fun _ => h
  have hk : knReg = 113 := rfl
  refine ⟨hk, rfl, specMessage m, encodeMeasurement_eq b m hc, ?_⟩
  rw [length_specMessage m hc]
  rw [hk] at h
  refine ⟨?_, ?_, ?_⟩
  · split_ifs <;> omega
  · split_ifs <;> omega
  · intro h1 h2 h3 h4 h5 h6
    rw [h1, h2, h3, h4, h5, h6]
    rfl

/-- C17, at the record with all five fields and 113 registers: 236 bytes. -/
theorem encodeMeasurement_fits_payload_witness :
    exFull.Modbus.v.nReg ≤ knReg
      ∧ ∃ out, encodeMeasurement [] exFull = some out ∧ out.length = 236 := by
  obtain ⟨-, -, out, h1, -, -, h2⟩ := encodeMeasurement_fits_payload [] exFull (by decide)
  exact ⟨by decide, out, h1, h2 rfl rfl rfl rfl rfl rfl⟩

theorem be16_inj {a c : Nat} (h : be16 a = be16 c) : a = c := by
  unfold be16 at h
  have h1 := (List.cons.inj h).1
  have h2 := (List.cons.inj (List.cons.inj h).2).1
  omega

theorem flatMap_be16_inj (f : F32 → Nat) (l1 l2 : List F32)
    (h : l1.flatMap (fun r => be16 (f r)) = l2.flatMap (fun r => be16 (f r))) :
    l1.map f = l2.map f := by
  induction l1 generalizing l2 with
  | nil =>
    cases l2 with
    | nil => rfl
    | cons c l2 => simp [be16] at h
  | cons a l1 ih =>
    cases l2 with
    | nil => simp [be16] at h
    | cons c l2 =>
      rw [List.flatMap_cons, List.flatMap_cons] at h
      have hh := List.append_inj h rfl
      rw [List.map_cons, List.map_cons, be16_inj hh.1, ih l2 hh.2]

theorem ite_flatMap (c : Bool) (l : List F32) (g : F32 → List Nat) :
    (if c then l.flatMap g else []) = (if c then l else []).flatMap g := by
  cases c <;> rfl

theorem ite_map (c : Bool) (l : List F32) (f : F32 → Nat) :
    (if c then l else []).map f = if c then l.map f else [] := by
  cases c <;> rfl

theorem append_ite_inj (c : Bool) (L1 L2 X1 X2 : List Nat)
    (h : L1 ++ (if c then X1 else []) = L2 ++ (if c then X2 else []))
    (hx : X1.length = X2.length) :
    L1 = L2 ∧ (c = true → X1 = X2) := by
  cases c with
  | false => simpa using h
  | true =>
    have := List.append_inj' h hx
    exact ⟨this.1, fun _ => this.2⟩

/-- Two messages are equal only if their flags, their fixed fields and their register
words are equal. -/
theorem specMessage_inj (m1 m2 : Measurements) (h : specMessage m1 = specMessage m2) :
    m1.Vbat.fValid = m2.Vbat.fValid ∧ m1.Vsys.fValid = m2.Vsys.fValid
      ∧ m1.Boot.fValid = m2.Boot.fValid ∧ m1.Env.fValid = m2.Env.fValid
      ∧ (m1.Vbat.fValid = true → encodeV m1.Vbat.v = encodeV m2.Vbat.v)
      ∧ (m1.Vsys.fValid = true → encodeV m1.Vsys.v = encodeV m2.Vsys.v)
      ∧ (m1.Boot.fValid = true → m1.Boot.v = m2.Boot.v)
      ∧ (m1.Env.fValid = true → encodeT m1.Env.v.t = encodeT m2.Env.v.t
          ∧ encodeRH m1.Env.v.rh = encodeRH m2.Env.v.rh)
      ∧ (if m1.Modbus.fValid then (sentRegisters m1.Modbus.v).map encodeRegister else [])
          = (if m2.Modbus.fValid then (sentRegisters m2.Modbus.v).map encodeRegister
              else []) := by
  have hflags : specFlags m1 = specFlags m2 := by
    unfold specMessage at h
    simp only [List.append_assoc, List.singleton_append] at h
    exact (List.cons.inj h).1
  obtain ⟨a0, a1, a2, a3, -⟩ := specFlags_testBit m1
  obtain ⟨c0, c1, c2, c3, -⟩ := specFlags_testBit m2
  rw [hflags] at a0 a1 a2 a3
  have hb : m1.Vbat.fValid = m2.Vbat.fValid := a0.symm.trans c0
  have hs : m1.Vsys.fValid = m2.Vsys.fValid := a1.symm.trans c1
  have hB : m1.Boot.fValid = m2.Boot.fValid := a2.symm.trans c2
  have hE : m1.Env.fValid = m2.Env.fValid := a3.symm.trans c3
  refine ⟨hb, hs, hB, hE, ?_⟩
  unfold specMessage at h
  rw [hflags, ← hb, ← hs, ← hB, ← hE] at h
  have hlen : ([specFlags m2]
        ++ (if m1.Vbat.fValid then be16 (encodeV m1.Vbat.v) else [])
        ++ (if m1.Vsys.fValid then be16 (encodeV m1.Vsys.v) else [])
        ++ (if m1.Boot.fValid then [m1.Boot.v.val] else [])
        ++ (if m1.Env.fValid then be16 (encodeT m1.Env.v.t) ++ be16 (encodeRH m1.Env.v.rh)
            else [])).length
      = ([specFlags m2]
        ++ (if m1.Vbat.fValid then be16 (encodeV m2.Vbat.v) else [])
        ++ (if m1.Vsys.fValid then be16 (encodeV m2.Vsys.v) else [])
        ++ (if m1.Boot.fValid then [m2.Boot.v.val] else [])
        ++ (if m1.Env.fValid then be16 (encodeT m2.Env.v.t) ++ be16 (encodeRH m2.Env.v.rh)
            else [])).length := by
    cases m1.Vbat.fValid <;> cases m1.Vsys.fValid <;> cases m1.Boot.fValid <;>
      cases m1.Env.fValid <;> rfl
  obtain ⟨hL, hR⟩ := List.append_inj h hlen
  obtain ⟨hL, hD⟩ := append_ite_inj _ _ _ _ _ hL rfl
  obtain ⟨hL, hC⟩ := append_ite_inj _ _ _ _ _ hL rfl
  obtain ⟨hL, hBs⟩ := append_ite_inj _ _ _ _ _ hL rfl
  obtain ⟨-, hA⟩ := append_ite_inj _ _ _ _ _ hL rfl
  refine ⟨fun hv => be16_inj (hA hv), fun hv => be16_inj (hBs hv), ?_, ?_, ?_⟩
  · intro hv
    exact Fin.ext (List.cons.inj (hC hv)).1
  · intro hv
    have := List.append_inj (hD hv) rfl
    exact ⟨be16_inj this.1, be16_inj this.2⟩
  · rw [ite_flatMap, ite_flatMap] at hR
    have key := flatMap_be16_inj encodeRegister _ _ hR
    rw [ite_map, ite_map] at key
    exact key

/-- C18: the wire format is uniquely decodable up to quantisation and up to the presence
of the register bank: when two records of the data model are encoded to the same bytes,
they agree on the validity of `Vbat`, `Vsys`, `Boot` and `Env`, on `encodeV(Vbat)`,
`encodeV(Vsys)`, `Boot`, `encodeT(t)` and `encodeRH(rh)` for each of those fields that is
valid, and on the sequence of `encodeRegister` values (empty for an invalid `Modbus`
field).  Conversely a record with `Modbus` invalid and the same record with `Modbus`
valid and `nReg = 0` are encoded to the same bytes. -/
theorem encodeMeasurement_decodable (b1 b2 : Buffer) (m1 m2 : Measurements)
    (h1 : m1.inContract) (h2 : m2.inContract)
    (h : encodeMeasurement b1 m1 = encodeMeasurement b2 m2) :
    (m1.Vbat.fValid = m2.Vbat.fValid ∧ m1.Vsys.fValid = m2.Vsys.fValid
      ∧ m1.Boot.fValid = m2.Boot.fValid ∧ m1.Env.fValid = m2.Env.fValid
      ∧ (m1.Vbat.fValid = true → encodeV m1.Vbat.v = encodeV m2.Vbat.v)
      ∧ (m1.Vsys.fValid = true → encodeV m1.Vsys.v = encodeV m2.Vsys.v)
      ∧ (m1.Boot.fValid = true → m1.Boot.v = m2.Boot.v)
      ∧ (m1.Env.fValid = true → encodeT m1.Env.v.t = encodeT m2.Env.v.t
          ∧ encodeRH m1.Env.v.rh = encodeRH m2.Env.v.rh)
      ∧ (if m1.Modbus.fValid then
            ((List.ofFn m1.Modbus.v.Register).take m1.Modbus.v.nReg).map encodeRegister
          else [])
          = (if m2.Modbus.fValid then
              ((List.ofFn m2.Modbus.v.Register).take m2.Modbus.v.nReg).map encodeRegister
            else []))
      ∧ ∀ (mb : modbus) (regs : Fin knReg → F32),
          ∃ out, encodeMeasurement b1 { m1 with Modbus := ⟨false, mb⟩ } = some out
            ∧ encodeMeasurement b1 { m1 with Modbus := ⟨true, ⟨0, regs⟩⟩ } = some out := by
  constructor
  · rw [encodeMeasurement_eq b1 m1 h1, encodeMeasurement_eq b2 m2 h2] at h
    exact specMessage_inj m1 m2 (Option.some.inj h)
  · intro mb regs
    have hc1 : ({ m1 with Modbus := ⟨false, mb⟩ } : Measurements).inContract :=
      fun hv => absurd hv (by simp)
    have hc2 : ({ m1 with Modbus := ⟨true, ⟨0, regs⟩⟩ } : Measurements).inContract :=
      fun _ => Nat.zero_le _
    refine ⟨_, encodeMeasurement_eq b1 _ hc1, ?_⟩
    rw [encodeMeasurement_eq b1 _ hc2]
    rfl

/-- C18, at the record with no field and the record with a valid register bank of no
registers: both are encoded to the single byte `0x00`, and they agree on everything the
bytes determine. -/
theorem encodeMeasurement_decodable_witness :
    encodeMeasurement [] exEmpty = encodeMeasurement [] exNoRegisters
      ∧ exEmpty.Boot.fValid = exNoRegisters.Boot.fValid
      ∧ (if exEmpty.Modbus.fValid then
            ((List.ofFn exEmpty.Modbus.v.Register).take exEmpty.Modbus.v.nReg).map
              encodeRegister
          else [])
          = (if exNoRegisters.Modbus.fValid then
              ((List.ofFn exNoRegisters.Modbus.v.Register).take
                exNoRegisters.Modbus.v.nReg).map encodeRegister
            else []) := by
  have heq : encodeMeasurement [] exEmpty = encodeMeasurement [] exNoRegisters := rfl
  have h := encodeMeasurement_decodable [] [] exEmpty exNoRegisters (by decide) (by decide) heq
  exact ⟨heq, h.1.2.2.1, h.1.2.2.2.2.2.2.2.2⟩

/-! ## The LoRaWAN sign/magnitude float encoder -/

theorem frexpf_fst_pos (q : ℚ) (h : 0 < q) : 0 < (frexpf q).1 := by
  unfold frexpf
  rw [if_neg h.ne']
  exact div_pos h (two_zpow_pos _)

theorem frexpf_neg (q : ℚ) : frexpf (-q) = (-(frexpf q).1, (frexpf q).2) := by
  unfold frexpf
  by_cases h : q = 0
  · simp [h]
  · rw [if_neg h, if_neg (neg_ne_zero.mpr h), abs_neg, neg_div]

theorem LMIC_f2sflt16_of_pos (q : ℚ) (h0 : 0 < q) (h1 : q < 1) :
    LMIC_f2sflt16 (F32.fin q) = LMIC_f2sflt16_pack 0 (frexpf q).1 (frexpf q).2 := by
  have hm := frexpf_fst_pos q h0
  have c1 : (F32.fin q).leq (-1) = false := by
    simp only [F32.leq, decide_eq_false_iff_not, not_le]
    linarith
  have c2 : (F32.fin q).geq 1 = false := by
    simp only [F32.geq, decide_eq_false_iff_not, not_le]
    exact h1
  unfold LMIC_f2sflt16
  rw [c1, c2]
  simp only [Bool.false_eq_true, if_false]
  rw [if_neg (not_lt.mpr hm.le)]

theorem LMIC_f2sflt16_of_neg (q : ℚ) (h0 : 0 < q) (h1 : q < 1) :
    LMIC_f2sflt16 (F32.fin (-q)) = LMIC_f2sflt16_pack 0x8000 (frexpf q).1 (frexpf q).2 := by
  have hm := frexpf_fst_pos q h0
  have c1 : (F32.fin (-q)).leq (-1) = false := by
    simp only [F32.leq, decide_eq_false_iff_not, not_le]
    linarith
  have c2 : (F32.fin (-q)).geq 1 = false := by
    simp only [F32.geq, decide_eq_false_iff_not, not_le]
    linarith
  unfold LMIC_f2sflt16
  rw [c1, c2]
  simp only [Bool.false_eq_true, if_false]
  rw [frexpf_neg]
  simp only
  rw [if_pos (by linarith), neg_neg]

/-- The last step of the encoder, for an exponent that is not negative and a fraction
below `2 ^ 11`: without the sign bit the word is below `2 ^ 15`, and the sign bit is
added to it. -/
theorem pack_core (E : ℤ) (fr : Nat) (hE : 0 ≤ E) (hfr : fr < 2048) :
    (if E > 15 then 0x7FFF ||| 0 else (0 ||| (E.toNat <<< 11) ||| fr) % 2 ^ 16) < 2 ^ 15
      ∧ (if E > 15 then 0x7FFF ||| 0x8000 else (0x8000 ||| (E.toNat <<< 11) ||| fr) % 2 ^ 16)
        = (if E > 15 then 0x7FFF ||| 0 else (0 ||| (E.toNat <<< 11) ||| fr) % 2 ^ 16)
            ||| 0x8000 := by
  by_cases h : E > 15
  · rw [if_pos h, if_pos h]
    decide
  · rw [if_neg h, if_neg h]
    have hn : E.toNat ≤ 15 := by omega
    have h1 : E.toNat <<< 11 ||| fr = 2 ^ 11 * E.toNat + fr := by
      rw [Nat.shiftLeft_eq, Nat.mul_comm]
      exact (Nat.mul_add_lt_is_or (by omega) _).symm
    have hx : 2 ^ 11 * E.toNat + fr < 2 ^ 15 := by omega
    have h2 : 0x8000 ||| (2 ^ 11 * E.toNat + fr) = 2 ^ 15 + (2 ^ 11 * E.toNat + fr) := by
      have := Nat.mul_add_lt_is_or hx 1
      rw [Nat.mul_one] at this
      exact this.symm
    rw [Nat.zero_or, Nat.lor_assoc, h1, h2, Nat.lor_comm _ 0x8000, Nat.mod_eq_of_lt (by omega),
      Nat.mod_eq_of_lt (by omega), h2]
    exact ⟨hx, rfl⟩

theorem LMIC_f2sflt16_pack_sign (m : ℚ) (e : ℤ) :
    LMIC_f2sflt16_pack 0 m e < 2 ^ 15
      ∧ LMIC_f2sflt16_pack 0x8000 m e = LMIC_f2sflt16_pack 0 m e ||| 0x8000 := by
  unfold LMIC_f2sflt16_pack
  simp only
  generalize u16 (((ldexpf (F32.fin m) 11).toDouble.add (1 / 2)).toInt) = fr0
  generalize hE0 : (if e + 15 < 0 then 0 else e + 15) = E0
  have hE0' : 0 ≤ E0 := by rw [← hE0]; split_ifs <;> omega
  by_cases hfr : fr0 ≥ 1 <<< 11
  · simp only [if_pos hfr]
    exact pack_core (E0 + 1) (1 <<< 10) (by omega) (by decide)
  · simp only [if_neg hfr]
    have : fr0 < 2048 := by
      have h2048 : (1 <<< 11 : Nat) = 2048 := by decide
      omega
    exact pack_core E0 fr0 hE0' this

/-- C14: `LMIC_f2sflt16` is a saturating sign/magnitude encoding: it returns `0x7FFF` for
every `f ≥ 1` (and for `+∞`) and `0xFFFF` for every `f ≤ -1` (and for `-∞`); for every
`q` with `0 < q < 1` the word for `q` has bit 15 clear and the word for `-q` is the word
for `q` with bit 15 set, with the same exponent and mantissa fields. -/
theorem LMIC_f2sflt16_sign_magnitude (f g q : ℚ) (hf : 1 ≤ f) (hg : g ≤ -1) (h0 : 0 < q)
    (h1 : q < 1) :
    LMIC_f2sflt16 (F32.fin f) = 0x7FFF ∧ LMIC_f2sflt16 F32.pinf = 0x7FFF
      ∧ LMIC_f2sflt16 (F32.fin g) = 0xFFFF ∧ LMIC_f2sflt16 F32.ninf = 0xFFFF
      ∧ (LMIC_f2sflt16 (F32.fin q)).testBit 15 = false
      ∧ LMIC_f2sflt16 (F32.fin (-q)) = LMIC_f2sflt16 (F32.fin q) ||| 0x8000
      ∧ sflt16Exp (LMIC_f2sflt16 (F32.fin (-q))) = sflt16Exp (LMIC_f2sflt16 (F32.fin q))
      ∧ sflt16Mant (LMIC_f2sflt16 (F32.fin (-q))) = sflt16Mant (LMIC_f2sflt16 (F32.fin q)) := by
  obtain ⟨hlt, hor⟩ := LMIC_f2sflt16_pack_sign (frexpf q).1 (frexpf q).2
  rw [← LMIC_f2sflt16_of_pos q h0 h1] at hlt hor
  rw [← LMIC_f2sflt16_of_neg q h0 h1] at hor
  have hadd : LMIC_f2sflt16 (F32.fin q) ||| 0x8000 = 2 ^ 15 + LMIC_f2sflt16 (F32.fin q) := by
    have := Nat.mul_add_lt_is_or hlt 1
    rw [Nat.mul_one] at this
    rw [Nat.lor_comm]
    exact this.symm
  refine ⟨?_, ?_, ?_, ?_, Nat.testBit_lt_two_pow hlt, hor, ?_, ?_⟩
  · have c1 : (F32.fin f).leq (-1) = false := by
      simp only [F32.leq, decide_eq_false_iff_not, not_le]
      linarith
    have c2 : (F32.fin f).geq 1 = true := by
      simp only [F32.geq, decide_eq_true_eq]
      exact hf
    unfold LMIC_f2sflt16
    rw [c1, c2]
    rfl
  · rfl
  · have c1 : (F32.fin g).leq (-1) = true := by
      simp only [F32.leq, decide_eq_true_eq]
      exact hg
    unfold LMIC_f2sflt16
    rw [c1]
    rfl
  · rfl
  · rw [hor, hadd]
    unfold sflt16Exp
    omega
  · rw [hor, hadd]
    unfold sflt16Mant
    omega

/-- C14, at `f = 1`, `g = -1` and `q = 0.5`. -/
theorem LMIC_f2sflt16_sign_magnitude_witness :
    LMIC_f2sflt16 (F32.fin 1) = 0x7FFF ∧ LMIC_f2sflt16 (F32.fin (-1)) = 0xFFFF
      ∧ (LMIC_f2sflt16 (F32.fin (1 / 2))).testBit 15 = false
      ∧ LMIC_f2sflt16 (F32.fin (-(1 / 2))) = LMIC_f2sflt16 (F32.fin (1 / 2)) ||| 0x8000 := by
  have h := LMIC_f2sflt16_sign_magnitude 1 (-1) (1 / 2) (by norm_num) (by norm_num)
    (by norm_num) (by norm_num)
  exact ⟨h.1, h.2.2.1, h.2.2.2.2.1, h.2.2.2.2.2.1⟩

/-! ## Rounding to binary64 -/

theorem ulpExp64_ge (q : ℚ) : -1074 ≤ ulpExp64 q := by
  unfold ulpExp64
  split_ifs
  · exact le_rfl
  · exact le_max_left _ _

theorem le_abs_of_ulpExp64 (q : ℚ) (h : -1074 < ulpExp64 q) :
    2 ^ (ulpExp64 q + 52) ≤ |q| := by
  unfold ulpExp64 at h ⊢
  split_ifs at h ⊢ with h0
  · omega
  · have hpos : 0 < |q| := abs_pos.mpr h0
    have h1 : ((2 : ℕ) : ℚ) ^ (Int.log 2 |q|) ≤ |q| := Int.zpow_log_le_self (by norm_num) hpos
    have h2 : max (-1074) (Int.log 2 |q| - 52) = Int.log 2 |q| - 52 := by
      rcases max_choice (-1074 : ℤ) (Int.log 2 |q| - 52) with hm | hm
      · rw [hm] at h; omega
      · exact hm
    rw [h2]
    have h3 : Int.log 2 |q| - 52 + 52 = Int.log 2 |q| := by ring
    rw [h3]
    exact_mod_cast h1

theorem ulpExp64_le_of_abs_lt (q : ℚ) (e : ℤ) (he : -1074 ≤ e) (h : |q| < 2 ^ (e + 53)) :
    ulpExp64 q ≤ e := by
  by_contra hc
  have h1 := le_abs_of_ulpExp64 q (by omega)
  have h2 : (2 : ℚ) ^ (e + 53) ≤ 2 ^ (ulpExp64 q + 52) := two_zpow_le (by omega)
  linarith

/-- A significand of fewer than 54 bits scaled by a power of two in the range of
binary64 is left unchanged by the rounding to binary64. -/
theorem round64_eq_self (M e : ℤ) (hM : |M| < 2 ^ 53) (he : -1074 ≤ e) (he2 : e ≤ 900) :
    round64 ((M : ℚ) * 2 ^ e) = F64.fin ((M : ℚ) * 2 ^ e) := by
  have hMq : |(M : ℚ)| < 2 ^ 53 := by
    have : ((|M| : ℤ) : ℚ) < ((2 ^ 53 : ℤ) : ℚ) := by exact_mod_cast hM
    push_cast at this
    exact this
  have hlt : |(M : ℚ) * 2 ^ e| < 2 ^ (e + 53) := by
    rw [abs_mul, abs_of_pos (two_zpow_pos e), zpow_add₀ (by norm_num : (2 : ℚ) ≠ 0), mul_comm]
    apply mul_lt_mul_of_pos_left _ (two_zpow_pos e)
    have h4 : (2 : ℚ) ^ (53 : ℤ) = 2 ^ 53 := by norm_num
    rw [h4]
    exact hMq
  have hfin : roundFin64 ((M : ℚ) * 2 ^ e) = (M : ℚ) * 2 ^ e := by
    unfold roundFin64
    exact roundNE_scaled M e _ (ulpExp64_le_of_abs_lt _ e he hlt)
  have habs : |(M : ℚ) * 2 ^ e| < 2 ^ 1024 := by
    rw [abs_mul, abs_of_pos (two_zpow_pos e)]
    have h2 : (2 : ℚ) ^ e ≤ 2 ^ (900 : ℤ) := two_zpow_le he2
    have h3 : (2 : ℚ) ^ (900 : ℤ) = 2 ^ 900 := by norm_num
    rw [h3] at h2
    calc |(M : ℚ)| * 2 ^ e ≤ |(M : ℚ)| * 2 ^ 900 :=
          mul_le_mul_of_nonneg_left h2 (abs_nonneg _)
      _ < 2 ^ 53 * 2 ^ 900 := mul_lt_mul_of_pos_right hMq (by positivity)
      _ = 2 ^ 953 := by rw [← pow_add]
      _ ≤ 2 ^ 1024 := pow_le_pow_right₀ (by norm_num) (by norm_num)
  have h := abs_lt.mp habs
  unfold round64
  rw [hfin, if_neg (not_le.mpr h.2), if_neg (not_le.mpr _)]
  linarith [h.1]

/-! ## The fraction and the word computed by `LMIC_f2sflt16` -/

theorem floor_div_8192 (N : ℤ) : ⌊(N : ℚ) / 8192⌋ = N / 8192 := by
  rw [Int.floor_eq_iff]
  have h1 : N / 8192 * 8192 ≤ N := Int.ediv_mul_le N (by norm_num)
  have h2 : N < (N / 8192 + 1) * 8192 := Int.lt_ediv_add_one_mul_self N (by norm_num)
  have h1q : ((N / 8192 * 8192 : ℤ) : ℚ) ≤ (N : ℚ) := by exact_mod_cast h1
  have h2q : (N : ℚ) < (((N / 8192 + 1) * 8192 : ℤ) : ℚ) := by exact_mod_cast h2
  push_cast at h1q h2q
  constructor
  · rw [le_div_iff₀ (by norm_num)]
    exact h1q
  · rw [div_lt_iff₀ (by norm_num)]
    exact h2q

/-- The fraction field before normalisation: for a 24-bit significand `M` of a fraction
`M / 2 ^ 24`, `ldexpf(normalValue, 11) + 0.5` is exact and truncates to
`(M + 4096) / 8192`. -/
theorem outputFraction_eq (M : ℤ) (h0 : 0 ≤ M) (h1 : M < 2 ^ 24) :
    u16 (((ldexpf (F32.fin ((M : ℚ) / 2 ^ 24)) 11).toDouble.add (1 / 2)).toInt)
      = ((M + 4096) / 8192).toNat := by
  have hx : ldexpf (F32.fin ((M : ℚ) / 2 ^ 24)) 11 = F32.fin ((M : ℚ) / 8192) := by
    have := round32_eq_self M (-13) (by rw [abs_of_nonneg h0]; exact h1) (by norm_num)
      (by norm_num)
    have e1 : (M : ℚ) * 2 ^ (-13 : ℤ) = (M : ℚ) / 8192 := by norm_num; ring
    have e2 : (M : ℚ) / 2 ^ 24 * 2 ^ (11 : ℤ) = (M : ℚ) / 8192 := by norm_num; ring
    simp only [ldexpf]
    rw [e2, ← e1]
    exact this
  have hy : (F64.fin ((M : ℚ) / 8192)).add (1 / 2) = F64.fin (((M + 4096 : ℤ) : ℚ) / 8192) := by
    have := round64_eq_self (M + 4096) (-13)
      (by rw [abs_of_nonneg (by omega)]; omega) (by norm_num) (by norm_num)
    have e1 : ((M + 4096 : ℤ) : ℚ) * 2 ^ (-13 : ℤ) = ((M + 4096 : ℤ) : ℚ) / 8192 := by
      norm_num; ring
    have e2 : (M : ℚ) / 8192 + 1 / 2 = ((M + 4096 : ℤ) : ℚ) / 8192 := by
      push_cast; ring
    simp only [F64.add]
    rw [e2, ← e1]
    exact this
  have hnn : (0 : ℚ) ≤ ((M + 4096 : ℤ) : ℚ) / 8192 := by
    apply div_nonneg _ (by norm_num)
    exact_mod_cast (by omega : (0 : ℤ) ≤ M + 4096)
  rw [hx]
  simp only [F32.toDouble]
  rw [hy]
  simp only [F64.toInt]
  rw [if_pos hnn, floor_div_8192]
  exact (toNat_eq_u16 _ (by omega) (by omega)).symm

/-- A binary32 value `a` with `2 ^ (-16) ≤ a < 1` is `M / 2 ^ 24 * 2 ^ e` with a normalised
24-bit significand `M` and `-15 ≤ e ≤ 0`, and `frexpf` returns `(M / 2 ^ 24, e)`. -/
theorem frexpf_of_float (a : ℚ) (ha : roundFin a = a) (h0 : 1 / 2 ^ 16 ≤ a) (h1 : a < 1) :
    ∃ (M e : ℤ), 2 ^ 23 ≤ M ∧ M < 2 ^ 24 ∧ -15 ≤ e ∧ e ≤ 0
      ∧ frexpf a = ((M : ℚ) / 2 ^ 24, e) ∧ a = (M : ℚ) / 2 ^ 24 * 2 ^ e := by
  have hpos : 0 < a := lt_of_lt_of_le (by norm_num) h0
  have habs : |a| = a := abs_of_pos hpos
  have hfr : frexpf a = (a / 2 ^ (Int.log 2 a + 1), Int.log 2 a + 1) := by
    unfold frexpf
    rw [if_neg hpos.ne', habs]
  have hl1 : ((2 : ℕ) : ℚ) ^ (Int.log 2 a) ≤ a := Int.zpow_log_le_self (by norm_num) hpos
  have hl2 : a < ((2 : ℕ) : ℚ) ^ (Int.log 2 a + 1) := Int.lt_zpow_succ_log_self (by norm_num) a
  push_cast at hl1 hl2
  have hlo : -16 ≤ Int.log 2 a := by
    rw [← Int.zpow_le_iff_le_log (by norm_num) hpos]
    norm_num
    linarith
  have hhi : Int.log 2 a < 0 := by
    rw [← Int.lt_zpow_iff_log_lt (by norm_num) hpos]
    norm_num
    exact h1
  have hexp : ulpExp a = Int.log 2 a - 23 := by
    apply ulpExp_eq a _ (by omega)
    · rw [habs]
      have : Int.log 2 a - 23 + 23 = Int.log 2 a := by ring
      rw [this]
      exact hl1
    · rw [habs]
      have : Int.log 2 a - 23 + 24 = Int.log 2 a + 1 := by ring
      rw [this]
      exact hl2
  obtain ⟨M, hM, haM⟩ := float_decomp a ha
  rw [hexp] at haM
  generalize Int.log 2 a = l at hfr hl1 hl2 hlo hhi haM
  have hp := two_zpow_pos (l - 23)
  have h23 : (2 : ℚ) ^ l = 2 ^ 23 * 2 ^ (l - 23) := by
    have : l = 23 + (l - 23) := by ring
    nth_rewrite 1 [this]
    rw [zpow_add₀ (by norm_num : (2 : ℚ) ≠ 0)]
    norm_num
  have h24 : (2 : ℚ) ^ (l + 1) = 2 ^ 24 * 2 ^ (l - 23) := by
    have : l + 1 = 24 + (l - 23) := by ring
    rw [this, zpow_add₀ (by norm_num : (2 : ℚ) ≠ 0)]
    norm_num
  have hMlo : (2 : ℤ) ^ 23 ≤ M := by
    have h : ((2 ^ 23 : ℤ) : ℚ) ≤ (M : ℚ) := by
      rw [h23, haM] at hl1
      push_cast
      exact le_of_mul_le_mul_right hl1 hp
    exact_mod_cast h
  refine ⟨M, l + 1, hMlo, (abs_lt.mp hM).2, by omega, by omega, ?_, ?_⟩
  · rw [hfr]
    congr 1
    rw [h24, haM]
    field_simp
    ring
  · rw [h24, haM]
    field_simp
    ring

/-- The word packed from the significand `M` and the exponent `e`, with the fraction
field in closed form. -/
theorem LMIC_f2sflt16_pack_eq (s : Nat) (M e : ℤ) (h0 : 0 ≤ M) (h1 : M < 2 ^ 24) :
    LMIC_f2sflt16_pack s ((M : ℚ) / 2 ^ 24) e
      = if ((M + 4096) / 8192).toNat ≥ 2048 then
          (if (if e + 15 < 0 then 0 else e + 15) + 1 > 15 then 0x7FFF ||| s
           else (s ||| (((if e + 15 < 0 then 0 else e + 15) + 1).toNat <<< 11) ||| 1024)
             % 2 ^ 16)
        else
          (if (if e + 15 < 0 then 0 else e + 15) > 15 then 0x7FFF ||| s
           else (s ||| ((if e + 15 < 0 then 0 else e + 15).toNat <<< 11)
             ||| ((M + 4096) / 8192).toNat) % 2 ^ 16) := by
  unfold LMIC_f2sflt16_pack
  simp only
  rw [outputFraction_eq M h0 h1]
  have h2048 : (1 <<< 11 : Nat) = 2048 := by decide
  have h1024 : (1 <<< 10 : Nat) = 1024 := by decide
  rw [h2048, h1024]
  by_cases hc : ((M + 4096) / 8192).toNat ≥ 2048
  · simp only [if_pos hc]
  · simp only [if_neg hc]

/-- The fields of the word with sign `neg`, exponent `E` and fraction `fr`. -/
theorem sflt16_fields (neg : Bool) (E fr : Nat) (hE : E ≤ 15) (hfr : fr < 2048) :
    ((if neg then 0x8000 else 0) ||| (E <<< 11) ||| fr) % 2 ^ 16
        = (if neg then 32768 else 0) + E * 2048 + fr
      ∧ ((if neg then 32768 else 0) + E * 2048 + fr).testBit 15 = neg
      ∧ sflt16Exp ((if neg then 32768 else 0) + E * 2048 + fr) = E
      ∧ sflt16Mant ((if neg then 32768 else 0) + E * 2048 + fr) = fr := by
  have h1 : E <<< 11 ||| fr = 2 ^ 11 * E + fr := by
    rw [Nat.shiftLeft_eq, Nat.mul_comm]
    exact (Nat.mul_add_lt_is_or (by omega) _).symm
  have hx : 2 ^ 11 * E + fr < 2 ^ 15 := by omega
  have h2 : 0x8000 ||| (2 ^ 11 * E + fr) = 2 ^ 15 + (2 ^ 11 * E + fr) := by
    have := Nat.mul_add_lt_is_or hx 1
    rw [Nat.mul_one] at this
    exact this.symm
  cases neg with
  | false =>
    simp only [Bool.false_eq_true, if_false]
    rw [Nat.zero_or, h1, Nat.mod_eq_of_lt (by omega)]
    refine ⟨by omega, ?_, ?_, ?_⟩
    · exact Nat.testBit_lt_two_pow (by omega)
    · unfold sflt16Exp; omega
    · unfold sflt16Mant; omega
  | true =>
    simp only [if_true]
    rw [Nat.lor_assoc, h1, h2, Nat.mod_eq_of_lt (by omega)]
    refine ⟨by omega, ?_, ?_, ?_⟩
    · have h3 : 32768 + E * 2048 + fr = 2 ^ 15 + (2 ^ 11 * E + fr) := by omega
      rw [h3, Nat.testBit_two_pow_add_eq, Nat.testBit_lt_two_pow hx]
      rfl
    · unfold sflt16Exp; omega
    · unfold sflt16Mant; omega

theorem two_zpow_add_eq (e k : ℤ) : (2 : ℚ) ^ (e + k) = 2 ^ e * 2 ^ k :=
  zpow_add₀ (by norm_num) e k

/-- The decoded value of a word given by its fields, against a magnitude `x`. -/
theorem sflt16Value_error (neg : Bool) (E fr : Nat) (hE : E ≤ 15) (hfr : fr < 2048) (x : ℚ)
    (h : |(fr : ℚ) / 2048 * 2 ^ ((E : ℤ) - 15) - x| ≤ 2 ^ ((E : ℤ) - 27)) :
    |sflt16Value ((if neg then 32768 else 0) + E * 2048 + fr) - (if neg then -1 else 1) * x|
      ≤ 2 ^ ((sflt16Exp ((if neg then 32768 else 0) + E * 2048 + fr) : ℤ) - 27) := by
  obtain ⟨-, hbit, hexp, hmant⟩ := sflt16_fields neg E fr hE hfr
  unfold sflt16Value
  rw [hbit, hexp, hmant]
  cases neg with
  | false =>
    simp only [Bool.false_eq_true, if_false]
    rw [one_mul, one_mul]
    exact h
  | true =>
    simp only [if_true]
    have : -1 * ((fr : ℚ) / 2048) * 2 ^ ((E : ℤ) - 15) - -1 * x
        = -((fr : ℚ) / 2048 * 2 ^ ((E : ℤ) - 15) - x) := by ring
    rw [this, abs_neg]
    exact h

/-- The word packed for a normalised significand `M` and an exponent `e` in `[-15, 0]`
decodes to within half a unit in the last place of `M / 2 ^ 24 * 2 ^ e`, provided the
value does not exceed `4095 / 4096`. -/
theorem LMIC_f2sflt16_pack_error (neg : Bool) (M e : ℤ) (hM0 : 2 ^ 23 ≤ M) (hM1 : M < 2 ^ 24)
    (he0 : -15 ≤ e) (he1 : e ≤ 0) (hsat : e = 0 → M ≤ 2 ^ 24 - 4096) :
    |sflt16Value (LMIC_f2sflt16_pack (if neg then 0x8000 else 0) ((M : ℚ) / 2 ^ 24) e)
        - (if neg then -1 else 1) * ((M : ℚ) / 2 ^ 24 * 2 ^ e)|
      ≤ 2 ^ ((sflt16Exp (LMIC_f2sflt16_pack (if neg then 0x8000 else 0)
          ((M : ℚ) / 2 ^ 24) e) : ℤ) - 27) := by
  rw [LMIC_f2sflt16_pack_eq _ M e (by omega) hM1, if_neg (by omega : ¬ e + 15 < 0)]
  have hn0 : 0 ≤ (M + 4096) / 8192 := by omega
  have hn1 : (M + 4096) / 8192 * 8192 ≤ M + 4096 := Int.ediv_mul_le _ (by norm_num)
  have hn2 : M + 4096 < ((M + 4096) / 8192 + 1) * 8192 :=
    Int.lt_ediv_add_one_mul_self _ (by norm_num)
  have ht := two_zpow_pos e
  by_cases hc : ((M + 4096) / 8192).toNat ≥ 2048
  · rw [if_pos hc]
    have hMhi : 2 ^ 24 - 4096 ≤ M := by omega
    have hMq : ((2 ^ 24 - 4096 : ℤ) : ℚ) ≤ (M : ℚ) := by exact_mod_cast hMhi
    have hMq1 : (M : ℚ) < ((2 ^ 24 : ℤ) : ℚ) := by exact_mod_cast hM1
    push_cast at hMq hMq1
    by_cases he : e = 0
    · have hMeq : M = 2 ^ 24 - 4096 := by have := hsat he; omega
      subst he
      rw [if_pos (by norm_num)]
      have hw : (0x7FFF ||| (if neg then 0x8000 else 0) : Nat)
          = (if neg then 32768 else 0) + 15 * 2048 + 2047 := by
        cases neg <;> decide
      rw [hw]
      apply sflt16Value_error neg 15 2047 (by norm_num) (by norm_num)
      rw [hMeq]
      norm_num
      rw [abs_le]
      constructor <;> norm_num
    · have he' : e + 15 + 1 ≤ 15 := by omega
      rw [if_neg (by omega)]
      have hE : (e + 15 + 1).toNat ≤ 15 := by omega
      rw [(sflt16_fields neg (e + 15 + 1).toNat 1024 hE (by norm_num)).1]
      apply sflt16Value_error neg _ 1024 hE (by norm_num)
      have hcast : (((e + 15 + 1).toNat : ℕ) : ℤ) = e + 16 := by omega
      rw [hcast]
      have e1 : (2 : ℚ) ^ (e + 16 - 15) = 2 ^ e * 2 := by
        have : e + 16 - 15 = e + 1 := by ring
        rw [this, two_zpow_add_eq]
        norm_num
      have e2 : (2 : ℚ) ^ (e + 16 - 27) = 2 ^ e * (1 / 2048) := by
        have : e + 16 - 27 = e + (-11) := by ring
        rw [this, two_zpow_add_eq]
        norm_num
      rw [e1, e2]
      have : ((1024 : ℕ) : ℚ) / 2048 * (2 ^ e * 2) - (M : ℚ) / 2 ^ 24 * 2 ^ e
          = 2 ^ e * (1 - (M : ℚ) / 2 ^ 24) := by push_cast; ring
      rw [this, abs_mul, abs_of_pos ht]
      apply mul_le_mul_of_nonneg_left _ ht.le
      have hd1 : (4095 : ℚ) / 4096 ≤ (M : ℚ) / 2 ^ 24 := by
        rw [le_div_iff₀ (by norm_num)]
        norm_num
        exact hMq
      have hd2 : (M : ℚ) / 2 ^ 24 < 1 := by
        rw [div_lt_iff₀ (by norm_num)]
        norm_num
        exact hMq1
      rw [abs_le]
      constructor <;> linarith
  · rw [if_neg hc, if_neg (by omega)]
    have hn3 : (M + 4096) / 8192 < 2048 := by omega
    have hE : (e + 15).toNat ≤ 15 := by omega
    rw [(sflt16_fields neg (e + 15).toNat ((M + 4096) / 8192).toNat hE (by omega)).1]
    apply sflt16Value_error neg _ _ hE (by omega)
    have hcast : (((e + 15).toNat : ℕ) : ℤ) = e + 15 := by omega
    have hcn : ((((M + 4096) / 8192).toNat : ℕ) : ℚ) = (((M + 4096) / 8192 : ℤ) : ℚ) := by
      have : ((((M + 4096) / 8192).toNat : ℕ) : ℤ) = (M + 4096) / 8192 := by omega
      exact_mod_cast this
    rw [hcast, hcn]
    have e1 : (2 : ℚ) ^ (e + 15 - 15) = 2 ^ e := by
      have : e + 15 - 15 = e := by ring
      rw [this]
    have e2 : (2 : ℚ) ^ (e + 15 - 27) = 2 ^ e * (1 / 4096) := by
      have : e + 15 - 27 = e + (-12) := by ring
      rw [this, two_zpow_add_eq]
      norm_num
    rw [e1, e2]
    have : (((M + 4096) / 8192 : ℤ) : ℚ) / 2048 * 2 ^ e - (M : ℚ) / 2 ^ 24 * 2 ^ e
        = 2 ^ e * ((((M + 4096) / 8192 : ℤ) : ℚ) / 2048 - (M : ℚ) / 2 ^ 24) := by ring
    rw [this, abs_mul, abs_of_pos ht]
    apply mul_le_mul_of_nonneg_left _ ht.le
    have q1 : ((((M + 4096) / 8192 * 8192 : ℤ)) : ℚ) ≤ ((M + 4096 : ℤ) : ℚ) := by
      exact_mod_cast hn1
    have q2 : ((M + 4096 : ℤ) : ℚ) < (((((M + 4096) / 8192 + 1) * 8192 : ℤ)) : ℚ) := by
      exact_mod_cast hn2
    push_cast at q1 q2
    rw [abs_le]
    constructor <;> linarith

theorem LMIC_f2sflt16_zero : LMIC_f2sflt16 (F32.fin 0) = 0x7800 := by
  have c1 : (F32.fin 0).leq (-1) = false := by
    simp only [F32.leq, decide_eq_false_iff_not, not_le]
    norm_num
  have c2 : (F32.fin 0).geq 1 = false := by
    simp only [F32.geq, decide_eq_false_iff_not, not_le]
    norm_num
  have hfr : frexpf 0 = (0, 0) := by
    unfold frexpf
    rw [if_pos rfl]
  unfold LMIC_f2sflt16
  rw [c1, c2]
  simp only [Bool.false_eq_true, if_false, hfr, lt_self_iff_false]
  have h := LMIC_f2sflt16_pack_eq 0 0 0 (by norm_num) (by norm_num)
  have e0 : ((0 : ℤ) : ℚ) / 2 ^ 24 = 0 := by norm_num
  rw [e0] at h
  rw [h]
  decide

theorem isFloat_neg (q : ℚ) (h : roundFin q = q) : roundFin (-q) = -q := by
  obtain ⟨M, hM, hqM⟩ := float_decomp q h
  have := roundFin_eq_self (-M) (ulpExp q) (by rw [abs_neg]; exact hM) (ulpExp_ge q)
  have e : ((-M : ℤ) : ℚ) * 2 ^ ulpExp q = -q := by
    push_cast
    rw [neg_mul, ← hqM]
  rw [e] at this
  exact this

theorem frexpf_eq (q : ℚ) (e : ℤ) (hq : 0 < q) (h1 : 2 ^ (e - 1) ≤ q) (h2 : q < 2 ^ e) :
    frexpf q = (q / 2 ^ e, e) := by
  have hlog : Int.log 2 q = e - 1 := by
    apply le_antisymm
    · have : Int.log 2 q < e := by
        rw [← Int.lt_zpow_iff_log_lt (by norm_num) hq]
        exact_mod_cast h2
      omega
    · rw [← Int.zpow_le_iff_le_log (by norm_num) hq]
      exact_mod_cast h1
  unfold frexpf
  rw [if_neg hq.ne', abs_of_pos hq, hlog]
  simp

/-- C19 as stated fails at the binary32 value `f = 1 - 2 ^ (-24)`: the fraction rounds up
to `1.0`, the result saturates to `0x7FFF`, which decodes to `2047 / 2048`, at distance
`2 ^ (-11) - 2 ^ (-24)` from `f`, more than `2 ^ (15 - 27)`.  It also fails at
`f = 2 ^ (-20)`: the exponent is clamped to `0` and the word `0x0400` decodes to
`2 ^ (-16)`. -/
theorem LMIC_f2sflt16_rounds_counterexample :
    ((F32.fin (1 - 1 / 2 ^ 24)).isFloat ∧ (-1 : ℚ) < 1 - 1 / 2 ^ 24 ∧ (1 - 1 / 2 ^ 24 : ℚ) < 1
        ∧ LMIC_f2sflt16 (F32.fin (1 - 1 / 2 ^ 24)) = 0x7FFF
        ∧ sflt16Exp 0x7FFF = 15 ∧ sflt16Value 0x7FFF = 2047 / 2048
        ∧ (2 : ℚ) ^ ((sflt16Exp (LMIC_f2sflt16 (F32.fin (1 - 1 / 2 ^ 24))) : ℤ) - 27)
            < |sflt16Value (LMIC_f2sflt16 (F32.fin (1 - 1 / 2 ^ 24))) - (1 - 1 / 2 ^ 24)|)
      ∧ ((F32.fin (1 / 2 ^ 20)).isFloat ∧ (-1 : ℚ) < 1 / 2 ^ 20 ∧ (1 / 2 ^ 20 : ℚ) < 1
        ∧ LMIC_f2sflt16 (F32.fin (1 / 2 ^ 20)) = 0x0400
        ∧ sflt16Exp 0x0400 = 0 ∧ sflt16Value 0x0400 = 1 / 2 ^ 16
        ∧ (2 : ℚ) ^ ((sflt16Exp (LMIC_f2sflt16 (F32.fin (1 / 2 ^ 20))) : ℤ) - 27)
            < |sflt16Value (LMIC_f2sflt16 (F32.fin (1 / 2 ^ 20))) - 1 / 2 ^ 20|) := by
  have hf1 : (F32.fin (1 - 1 / 2 ^ 24)).isFloat := by
    have := round32_eq_self (2 ^ 24 - 1) (-24) (by norm_num) (by norm_num) (by norm_num)
    have h : (((2 ^ 24 - 1 : ℤ)) : ℚ) * 2 ^ (-24 : ℤ) = 1 - 1 / 2 ^ 24 := by norm_num
    rw [h] at this
    exact this
  have hf2 : (F32.fin (1 / 2 ^ 20)).isFloat := by
    have := round32_eq_self 1 (-20) (by norm_num) (by norm_num) (by norm_num)
    have h : (((1 : ℤ)) : ℚ) * 2 ^ (-20 : ℤ) = 1 / 2 ^ 20 := by norm_num
    rw [h] at this
    exact this
  have hw1 : LMIC_f2sflt16 (F32.fin (1 - 1 / 2 ^ 24)) = 0x7FFF := by
    rw [LMIC_f2sflt16_of_pos _ (by norm_num) (by norm_num),
      frexpf_eq (1 - 1 / 2 ^ 24) 0 (by norm_num) (by norm_num) (by norm_num)]
    have e0 : ((1 : ℚ) - 1 / 2 ^ 24) / 2 ^ (0 : ℤ) = ((2 ^ 24 - 1 : ℤ) : ℚ) / 2 ^ 24 := by
      norm_num
    simp only
    rw [e0, LMIC_f2sflt16_pack_eq 0 (2 ^ 24 - 1) 0 (by norm_num) (by norm_num)]
    decide
  have hw2 : LMIC_f2sflt16 (F32.fin (1 / 2 ^ 20)) = 0x0400 := by
    rw [LMIC_f2sflt16_of_pos _ (by norm_num) (by norm_num),
      frexpf_eq (1 / 2 ^ 20) (-19) (by norm_num) (by norm_num) (by norm_num)]
    have e0 : ((1 : ℚ) / 2 ^ 20) / 2 ^ (-19 : ℤ) = ((2 ^ 23 : ℤ) : ℚ) / 2 ^ 24 := by
      norm_num
    simp only
    rw [e0, LMIC_f2sflt16_pack_eq 0 (2 ^ 23) (-19) (by norm_num) (by norm_num)]
    decide
  have hx1 : sflt16Exp 0x7FFF = 15 := by decide
  have hx2 : sflt16Exp 0x0400 = 0 := by decide
  have hv1 : sflt16Value 0x7FFF = 2047 / 2048 := by
    have hb : Nat.testBit 0x7FFF 15 = false := by decide
    have hm : sflt16Mant 0x7FFF = 2047 := by decide
    unfold sflt16Value
    rw [hb, hx1, hm]
    norm_num
  have hv2 : sflt16Value 0x0400 = 1 / 2 ^ 16 := by
    have hb : Nat.testBit 0x0400 15 = false := by decide
    have hm : sflt16Mant 0x0400 = 1024 := by decide
    unfold sflt16Value
    rw [hb, hx2, hm]
    norm_num
  refine ⟨⟨hf1, by norm_num, by norm_num, hw1, hx1, hv1, ?_⟩,
    ⟨hf2, by norm_num, by norm_num, hw2, hx2, hv2, ?_⟩⟩
  · rw [hw1, hx1, hv1]
    norm_num [abs_of_pos]
  · rw [hw2, hx2, hv2]
    norm_num [abs_of_pos]

theorem LMIC_f2sflt16_error_pos (neg : Bool) (a : ℚ) (ha : roundFin a = a)
    (h0 : 1 / 2 ^ 16 ≤ a) (h1 : a ≤ 4095 / 4096) :
    |sflt16Value (LMIC_f2sflt16_pack (if neg then 0x8000 else 0) (frexpf a).1 (frexpf a).2)
        - (if neg then -1 else 1) * a|
      ≤ 2 ^ ((sflt16Exp (LMIC_f2sflt16_pack (if neg then 0x8000 else 0) (frexpf a).1
          (frexpf a).2) : ℤ) - 27) := by
  obtain ⟨M, e, hM0, hM1, he0, he1, hfr, haM⟩ :=
    frexpf_of_float a ha h0 (lt_of_le_of_lt h1 (by norm_num))
  have hsat : e = 0 → M ≤ 2 ^ 24 - 4096 := by
    intro he
    rw [he] at haM
    have h2 : (M : ℚ) / 2 ^ 24 ≤ 4095 / 4096 := by
      rw [haM] at h1
      simpa using h1
    rw [div_le_iff₀ (by norm_num)] at h2
    have h3 : (M : ℚ) ≤ ((2 ^ 24 - 4096 : ℤ) : ℚ) := by
      push_cast
      norm_num at h2 ⊢
      exact h2
    exact_mod_cast h3
  have := LMIC_f2sflt16_pack_error neg M e hM0 hM1 he0 he1 hsat
  rw [hfr]
  simp only
  rw [← haM] at this
  exact this

/-- C19, amended: for every binary32 value `f` that is zero or has
`2 ^ (-16) ≤ |f| ≤ 4095 / 4096`, the value `(-1) ^ s * (M / 2048) * 2 ^ (E - 15)` decoded
from the fields of `LMIC_f2sflt16 f` differs from `f` by at most `2 ^ (E - 27)`. -/
theorem LMIC_f2sflt16_rounds (q : ℚ) (hq : (F32.fin q).isFloat)
    (hr : q = 0 ∨ 1 / 2 ^ 16 ≤ |q|) (hs : |q| ≤ 4095 / 4096) :
    |sflt16Value (LMIC_f2sflt16 (F32.fin q)) - q|
      ≤ 2 ^ ((sflt16Exp (LMIC_f2sflt16 (F32.fin q)) : ℤ) - 27) := by
  have hfl : roundFin q = q := roundFin_of_round32 hq
  by_cases hz : q = 0
  · rw [hz, LMIC_f2sflt16_zero]
    have hb : Nat.testBit 0x7800 15 = false := by decide
    have hm : sflt16Mant 0x7800 = 0 := by decide
    have hv : sflt16Value 0x7800 = 0 := by
      unfold sflt16Value
      rw [hb, hm]
      norm_num
    rw [hv, sub_zero, abs_zero]
    exact (two_zpow_pos _).le
  · have hr2 : 1 / 2 ^ 16 ≤ |q| := hr.resolve_left hz
    rcases lt_or_gt_of_ne hz with hneg | hpos
    · have ha : |q| = -q := abs_of_neg hneg
      rw [ha] at hr2 hs
      have h := LMIC_f2sflt16_error_pos true (-q) (isFloat_neg q hfl) hr2 hs
      have hw := LMIC_f2sflt16_of_neg (-q) (by linarith) (by linarith)
      rw [neg_neg] at hw
      simp only [if_true] at h
      rw [← hw] at h
      have e : (-1 : ℚ) * -q = q := by ring
      rw [e] at h
      exact h
    · have ha : |q| = q := abs_of_pos hpos
      rw [ha] at hr2 hs
      have h := LMIC_f2sflt16_error_pos false q hfl hr2 hs
      have hw := LMIC_f2sflt16_of_pos q hpos (by linarith)
      simp only [Bool.false_eq_true, if_false] at h
      rw [← hw, one_mul] at h
      exact h

/-- C19, amended, at `f = -0.375`. -/
theorem LMIC_f2sflt16_rounds_witness :
    (F32.fin (-3 / 8)).isFloat ∧ (1 : ℚ) / 2 ^ 16 ≤ |(-3 / 8 : ℚ)|
      ∧ |(-3 / 8 : ℚ)| ≤ 4095 / 4096
      ∧ |sflt16Value (LMIC_f2sflt16 (F32.fin (-3 / 8))) - (-3 / 8)|
          ≤ 2 ^ ((sflt16Exp (LMIC_f2sflt16 (F32.fin (-3 / 8))) : ℤ) - 27) := by
  have hf : (F32.fin (-3 / 8)).isFloat := by
    have := round32_eq_self (-3) (-3) (by norm_num) (by norm_num) (by norm_num)
    have h : (((-3 : ℤ)) : ℚ) * 2 ^ (-3 : ℤ) = -3 / 8 := by norm_num
    rw [h] at this
    exact this
  have h1 : (1 : ℚ) / 2 ^ 16 ≤ |(-3 / 8 : ℚ)| := by
    rw [abs_of_neg (by norm_num)]
    norm_num
  have h2 : |(-3 / 8 : ℚ)| ≤ 4095 / 4096 := by
    rw [abs_of_neg (by norm_num)]
    norm_num
  exact ⟨hf, h1, h2, LMIC_f2sflt16_rounds (-3 / 8) hf (Or.inr h1) h2⟩
